import Mathlib

/-!
Verification of the OpenHowNet knowledge-base access layer
(`OpenHowNet/Standards.py`).

The development shallowly embeds the definition-language scanner
(`HowNetDict._gen_sememe_tree`), the flattening routine
(`HowNetDict._gen_sememe_list`), the tree expansion
(`HowNetDict._expand_tree`), the word-lookup operations
(`HowNetDict.__getitem__`, `HowNetDict.get`,
`HowNetDict.get_sememes_by_word`) and the taxonomy-triple maps of
`Sememe` as total Lean functions.

Conventions used throughout:
* Python strings are `List Char`; indexing follows Python semantics
  (negative indices wrap once, out-of-range access is an `IndexError`).
* Fallible Python code is modelled with `Except PyErr`; the constructors
  of `PyErr` name the Python exception classes that the source can raise.
* The scanning `while` loops of the source are modelled by functions
  carrying an explicit step budget that runs out exactly when the Python
  loop would index past the left end of the string; well-founded
  (budget-free) variants are given alongside and proved to agree, which
  expresses termination of the loops.
* A `Sememe` object is identified by its registry key (`en_ch`), a
  `Sense` object by its fields; `sememe_dic` is the list of registered
  keys.
-/

/-- Python exception kinds that the modelled code can raise. -/
inductive PyErr
  | indexError
  | keyError
  | attributeError
  | typeError
  deriving DecidableEq, Repr

instance {ε α : Type} [DecidableEq ε] [DecidableEq α] : DecidableEq (Except ε α) := fun a b =>
  match a, b with
  | .error x, .error y =>
    if h : x = y then isTrue (by rw [h]) else isFalse (by intro hc; cases hc; exact h rfl)
  | .ok x, .ok y =>
    if h : x = y then isTrue (by rw [h]) else isFalse (by intro hc; cases hc; exact h rfl)
  | .error _, .ok _ => isFalse (by intro hc; cases hc)
  | .ok _, .error _ => isFalse (by intro hc; cases hc)

/-- Payload of a node of the exported definition tree: the owning sense
(root only), a sememe (identified by its `en_ch` key), or one of the three
anaphora marker characters. -/
inductive NodeName
  | sense (no : String)
  | sem (label : String)
  | marker (c : Char)
  deriving DecidableEq, Repr

mutual
/-- Exported definition tree (the dict produced by `DictExporter` /
the `anytree` node structure): a payload, a role string, and the ordered
children. -/
inductive SemTree
  | node (name : NodeName) (role : String) (children : SemForest)
  deriving DecidableEq, Repr
/-- Ordered list of sibling subtrees. -/
inductive SemForest
  | nil
  | cons (t : SemTree) (ts : SemForest)
  deriving DecidableEq, Repr
end

/-- Convert a Lean list of subtrees to a forest. -/
def forestOf : List SemTree → SemForest
  | [] => .nil
  | t :: ts => .cons t (forestOf ts)

/-- Effective index of Python string indexing: negative indices wrap once
from the right end. -/
def pyIdx (s : List Char) (i : Int) : Int :=
  if i < 0 then i + s.length else i

/-- Python string indexing `s[i]`: negative indices wrap once from the
right end, anything further out raises `IndexError`. -/
def pyCharAt (s : List Char) (i : Int) : Except PyErr Char :=
  if pyIdx s i < 0 then .error .indexError
  else match s.get? (pyIdx s i).toNat with
    | some c => .ok c
    | none => .error .indexError

/-- Clamp one endpoint of a Python slice to `[0, len]`. -/
def pyIdxClamp (len : Nat) (i : Int) : Nat :=
  if i < 0 then (i + len).toNat else min i.toNat len

/-- Python slice `s[a:b]`. -/
def pySlice (s : List Char) (a b : Int) : List Char :=
  (s.take (pyIdxClamp s.length b)).drop (pyIdxClamp s.length a)

/-- Step-bounded forward scan of `while kdml[end_idx] not in ['}', ':', '"']:
end_idx = end_idx + 1` (`_gen_sememe_tree` / `_gen_sememe_list`). Indexing past
the right end raises `IndexError`; the budget is irrelevant as long as it
covers the remaining positions (see `findEndA_eq_findEndW`). -/
def findEndA : Nat → List Char → Nat → Except PyErr Nat
  | 0, _, _ => .error .indexError
  | k+1, s, i =>
    match s.get? i with
    | none => .error .indexError
    | some c => if c = '\x7d' ∨ c = ':' ∨ c = '"' then .ok i else findEndA k s (i+1)

/-- Forward scan for the closing delimiter of a sememe reference. -/
def findEnd (s : List Char) (i : Nat) : Except PyErr Nat :=
  findEndA (s.length + 1 - i) s i

/-- Budget-free forward scan, total by well-founded recursion on the
remaining length: each step strictly advances the position. -/
def findEndW (s : List Char) (i : Nat) : Except PyErr Nat :=
  match h : s.get? i with
  | none => .error .indexError
  | some c => if c = '\x7d' ∨ c = ':' ∨ c = '"' then .ok i else findEndW s (i+1)
termination_by s.length - i
decreasing_by
  have hi : i < s.length := by
    by_contra hc
    rw [List.get?_eq_none.mpr (Nat.le_of_not_lt hc)] at h
    cases h
  omega

/-- Step-bounded backward scan of `while kdml[start_idx] not in ['{', '"']:
start_idx = start_idx - 1`. The index may become negative (Python then wraps
once from the right end); running past `-len(s) - 1` raises `IndexError`,
which is exactly when the budget `(i + s.length + 1).toNat` runs out. -/
def findStartA : Nat → List Char → Int → Except PyErr Int
  | 0, _, _ => .error .indexError
  | k+1, s, i =>
    match pyCharAt s i with
    | .error e => .error e
    | .ok c => if c = '\x7b' ∨ c = '"' then .ok i else findStartA k s (i-1)

/-- Backward scan for the opening delimiter of a sememe reference. -/
def findStart (s : List Char) (i : Int) : Except PyErr Int :=
  findStartA (i + s.length + 1).toNat s i

/-- Budget-free backward scan, total by well-founded recursion: each step
strictly decreases the position, bounded below by `-len(s) - 1`. -/
def findStartW (s : List Char) (i : Int) : Except PyErr Int :=
  match h : pyCharAt s i with
  | .error e => .error e
  | .ok c => if c = '\x7b' ∨ c = '"' then .ok i else findStartW s (i-1)
termination_by (i + s.length + 1).toNat
decreasing_by
  have hlow : -(s.length : Int) ≤ i := by
    by_contra hc
    push_neg at hc
    unfold pyCharAt at h
    rw [if_pos (show pyIdx s i < 0 by
      unfold pyIdx
      rw [if_pos (show i < 0 by omega)]
      omega)] at h
    cases h
  omega

/-- Step-bounded backward scan locating the `:` that closes the enclosing
attribute group (the parent-resolution loop of `_gen_sememe_tree`): tracks
open braces, close braces and quotes, breaks at position 0, stops at a `:`
with one unmatched `{` outside quotes (or balanced braces inside quotes). -/
def findCursorA : Nat → List Char → Int → Nat → Nat → Nat → Except PyErr Int
  | 0, _, _, _, _, _ => .error .indexError
  | k+1, s, cursor, lb, rb, q =>
    match pyCharAt s cursor with
    | .error e => .error e
    | .ok c =>
      if c = ':' ∧ ((q % 2 = 0 ∧ lb = rb + 1) ∨ (q % 2 = 1 ∧ lb = rb)) then .ok cursor
      else if cursor = 0 then .ok 0
      else if c = '\x7b' then findCursorA k s (cursor - 1) (lb+1) rb q
      else if c = '\x7d' then findCursorA k s (cursor - 1) lb (rb+1) q
      else if c = '"' then findCursorA k s (cursor - 1) lb rb (q+1)
      else findCursorA k s (cursor - 1) lb rb q

/-- Parent-resolution backward scan, started at the entity's first position
with all counters zero. -/
def findCursor (s : List Char) (cursor : Int) : Except PyErr Int :=
  findCursorA (cursor + s.length + 1).toNat s cursor 0 0 0

/-- Budget-free parent-resolution scan, total by well-founded recursion on
the strictly decreasing cursor. -/
def findCursorW (s : List Char) (cursor : Int) (lb rb q : Nat) : Except PyErr Int :=
  match h : pyCharAt s cursor with
  | .error e => .error e
  | .ok c =>
    if c = ':' ∧ ((q % 2 = 0 ∧ lb = rb + 1) ∨ (q % 2 = 1 ∧ lb = rb)) then .ok cursor
    else if cursor = 0 then .ok 0
    else if c = '\x7b' then findCursorW s (cursor - 1) (lb+1) rb q
    else if c = '\x7d' then findCursorW s (cursor - 1) lb (rb+1) q
    else if c = '"' then findCursorW s (cursor - 1) lb rb (q+1)
    else findCursorW s (cursor - 1) lb rb q
termination_by (cursor + s.length + 1).toNat
decreasing_by
  all_goals
    have hlow : -(s.length : Int) ≤ cursor := by
      by_contra hc
      push_neg at hc
      unfold pyCharAt at h
      rw [if_pos (show pyIdx s cursor < 0 by
        unfold pyIdx
        rw [if_pos (show cursor < 0 by omega)]
        omega)] at h
      cases h
    omega

/-- Step-bounded role-resolution scan: Python
`for j in range(start - 1, right_range, -1)`, remembering the last `=` seen
and breaking at the first `,` or `:`. Returns `(role_begin_idx, role_end_idx)`
with `-1` standing for "not found", as in the source. -/
def roleScanA : Nat → List Char → Int → Int → Except PyErr (Int × Int)
  | 0, _, _, re => .ok (-1, re)
  | k+1, s, j, re =>
    match pyCharAt s j with
    | .error e => .error e
    | .ok c =>
      if c = '=' then roleScanA k s (j-1) j
      else if c = ',' ∨ c = ':' then .ok (j, re)
      else roleScanA k s (j-1) re

/-- Role-resolution scan over the window `range(start - 1, rightRange, -1)`. -/
def roleScan (s : List Char) (start rightRange : Int) : Except PyErr (Int × Int) :=
  roleScanA (start - 1 - rightRange).toNat s (start - 1) (-1)

/-- First index at which `pat` occurs in `s` (Python `str.find`, with
`none` for Python's `-1`). -/
def findSubA : Nat → List Char → List Char → Nat → Option Nat
  | 0, _, _, _ => none
  | k+1, s, pat, i => if pat.isPrefixOf (s.drop i) then some i else findSubA k s pat (i+1)

/-- Python `kdml.find(pat)` as an optional index. -/
def strFind (s pat : List Char) : Option Nat :=
  findSubA (s.length + 1) s pat 0

/-- Strip the trailing remark segment: `kdml = kdml[:rmk_pos]` when
`kdml.find('RMK=') >= 0`. -/
def rmkStrip (s : List Char) : List Char :=
  match strFind s "RMK=".data with
  | some p => s.take p
  | none => s

/-- Python `str.split(';')`: always returns at least one (possibly empty)
chunk. -/
def splitSemi : List Char → List (List Char)
  | [] => [[]]
  | c :: rest =>
    if c = ';' then [] :: splitSemi rest
    else
      match splitSemi rest with
      | [] => [[c]]
      | g :: gs => (c :: g) :: gs

/-- The clause actually parsed by `_gen_sememe_tree`: the function returns
from inside its `for kdml in kdml_list` loop, so only the first
`;`-separated chunk of the `RMK=`-stripped definition is ever processed. -/
def firstClause (s : List Char) : List Char :=
  (splitSemi (rmkStrip s)).headD []

/-- One recorded entity of the entity-scanning pass: its character span
`[start, stop)` (Python may record a negative start after a wrapped
backward scan) and its payload. -/
structure Ent where
  start : Int
  stop : Int
  name : NodeName
  deriving DecidableEq, Repr

instance : Inhabited Ent := ⟨⟨0, 0, .marker ' '⟩⟩

/-- Entity scan of `_gen_sememe_tree`: one left-to-right pass over the
clause; anaphora marker characters become marker entities with a
one-character span, each `|` triggers the two delimiter scans and a
registry lookup of the span text with blanks replaced by underscores
(`KeyError` when the label is not registered). -/
def scanEntsA : Nat → List String → List Char → Nat → Except PyErr (List Ent)
  | 0, _, _, _ => .ok []
  | k+1, dic, s, i =>
    match s.get? i with
    | none => .ok []
    | some c =>
      if c = '~' ∨ c = '?' ∨ c = '$' then do
        let rest ← scanEntsA k dic s (i+1)
        pure (⟨(i : Int), (i : Int) + 1, .marker c⟩ :: rest)
      else if c = '|' then do
        let st ← findStart s i
        let en ← findEnd s i
        if dic.contains
            (String.mk ((pySlice s (st + 1) en).map (fun ch => if ch = ' ' then '_' else ch))) then do
          let rest ← scanEntsA k dic s (i+1)
          pure (⟨st + 1, (en : Int),
            .sem (String.mk ((pySlice s (st + 1) en).map
              (fun ch => if ch = ' ' then '_' else ch)))⟩ :: rest)
        else .error .keyError
      else scanEntsA k dic s (i+1)

/-- Entity scan over the whole clause. -/
def scanEnts (dic : List String) (s : List Char) : Except PyErr (List Ent) :=
  scanEntsA s.length dic s 0

/-- Indices of the `~` entities (the source's `pointer` list). -/
def pointerOf (ents : List Ent) : List Nat :=
  (List.range ents.length).filter (fun k => (ents.getD k default).name = NodeName.marker '~')

/-- A node of the intermediate `anytree` structure: payload, role label
(default `"None"`), and the index of the parent entity if the parent
search succeeded. -/
structure RNode where
  name : NodeName
  role : String
  parent : Option Nat
  deriving DecidableEq, Repr

instance : Inhabited RNode := ⟨⟨.marker ' ', "None", none⟩⟩

/-- Parent search: `for j in range(i - 1, -1, -1)`, attaching the first
earlier entity whose span ends exactly at the cursor position. -/
def findParentGo (ents : List Ent) (cursor : Int) : Nat → Option Nat
  | 0 => none
  | j+1 => if (ents.getD j default).stop = cursor then some j else findParentGo ents cursor j

/-- Parent and role resolution for entity `i`, mirroring one iteration of
the resolution loop of `_gen_sememe_tree`: find the enclosing `:` with
`findCursor`, pick the parent among earlier entities, then (for `i ≠ 0`)
scan the window down to the parent's end (or the previous entity's end)
for a role label: the window's right bound. -/
def rightRangeOf (ents : List Ent) (i : Nat) (pidx : Option Nat) : Int :=
  match pidx with
  | some p => (ents.getD p default).stop - 1
  | none => (ents.getD (i-1) default).stop - 1

/-- Parent and role resolution for entity `i` continued: role window scan
and node assembly. -/
def resolveNode (s : List Char) (ents : List Ent) (i : Nat) : Except PyErr RNode := do
  let cursor ← findCursor s (ents.getD i default).start
  if i = 0 then
    pure ⟨(ents.getD i default).name, "None", findParentGo ents cursor i⟩
  else do
    let rbre ← roleScan s (ents.getD i default).start
        (rightRangeOf ents i (findParentGo ents cursor i))
    pure ⟨(ents.getD i default).name,
      (if rbre.2 ≠ -1 then String.mk (pySlice s (rbre.1 + 1) rbre.2) else "None"),
      findParentGo ents cursor i⟩

/-- Resolution loop over all entities, in order. -/
def resolveAllA : Nat → List Char → List Ent → Nat → Except PyErr (List RNode)
  | 0, _, _, _ => .ok []
  | k+1, s, ents, i =>
    if i < ents.length then do
      let nd ← resolveNode s ents i
      let rest ← resolveAllA k s ents (i+1)
      pure (nd :: rest)
    else .ok []

/-- Parent/role resolution of every scanned entity. -/
def resolveAll (s : List Char) (ents : List Ent) : Except PyErr (List RNode) :=
  resolveAllA ents.length s ents 0

/-- One step of the anaphora collapse, `for i in pointer`: copy the
marker's role onto its parent (`AttributeError` when the marker has no
parent, Python's `None.role`), then detach the marker. -/
def collapseStep (ns : List RNode) (i : Nat) : Except PyErr (List RNode) :=
  match (ns.getD i default).parent with
  | none => .error .attributeError
  | some p =>
    .ok ((ns.set p { ns.getD p default with role := (ns.getD i default).role }).set i
      { (ns.set p { ns.getD p default with role := (ns.getD i default).role }).getD i default with
        parent := none })

/-- Anaphora collapse over the whole `pointer` list. -/
def collapse (ns : List RNode) (ptr : List Nat) : Except PyErr (List RNode) :=
  List.foldlM collapseStep ns ptr

/-- Indices attached (in entity order, as `anytree` keeps attachment
order) below node `j`. The parent search only ever returns a smaller
index, so the guard `j < i` never excludes a node of an actual parse. -/
def childrenIdx (ns : List RNode) (j : Nat) : List Nat :=
  (List.range ns.length).filter (fun i => j < i ∧ (ns.getD i default).parent = some j)

/-- Materialize the subtree below node `j` from the parent table. The
budget only needs to cover the longest parent chain, which strict index
decrease bounds by `ns.length` (see `buildTreeA_stable`). -/
def buildTreeA : Nat → List RNode → Nat → SemTree
  | 0, ns, j => .node (ns.getD j default).name (ns.getD j default).role .nil
  | k+1, ns, j =>
    .node (ns.getD j default).name (ns.getD j default).role
      (forestOf ((childrenIdx ns j).map (buildTreeA k ns)))

/-- Subtree below node `j`. -/
def buildTree (ns : List RNode) (j : Nat) : SemTree :=
  buildTreeA ns.length ns j

/-- The tree generator `_gen_sememe_tree`: strip the remark, split into
clauses, scan and resolve the first clause (the source returns from inside
its clause loop), collapse the `~` markers, then hang entity 0 under the
root whose payload is the owning sense (`IndexError` when the clause
produced no entity at all). The exported dict and the `return_node=True`
variant carry the same information, both are modelled by `SemTree`. -/
def genSememeTree (dic : List String) (senseNo : String) (df : List Char) :
    Except PyErr SemTree := do
  let kdml := firstClause df
  let ents ← scanEnts dic kdml
  let nodes ← resolveAll kdml ents
  let nodes2 ← collapse nodes (pointerOf ents)
  if nodes2.length = 0 then .error .indexError
  else .ok (.node (.sense senseNo) "sense" (.cons (buildTree nodes2 0) .nil))

/-- The flattening routine `_gen_sememe_list`: a single `|`-scan over the
entire raw definition (no remark stripping, no clause split, no blank
replacement), collecting registry lookups left to right. -/
def genSememeListA : Nat → List String → List Char → Nat → Except PyErr (List String)
  | 0, _, _, _ => .ok []
  | k+1, dic, s, i =>
    match s.get? i with
    | none => .ok []
    | some c =>
      if c = '|' then do
        let st ← findStart s i
        let en ← findEnd s i
        if dic.contains (String.mk (pySlice s (st + 1) en)) then do
          let rest ← genSememeListA k dic s (i+1)
          pure (String.mk (pySlice s (st + 1) en) :: rest)
        else .error .keyError
      else genSememeListA k dic s (i+1)

/-- Flat sememe list of a raw definition string. -/
def genSememeList (dic : List String) (s : List Char) : Except PyErr (List String) :=
  genSememeListA s.length dic s 0

/-- The recursive body of `_expand_tree` applied to a `children` list with
`isRoot=False`: each item contributes its name unless it is the `$` or `?`
marker, and its children are expanded with one budget level less (an exact
budget of 0 stops; the initial `-1` therefore never stops). -/
def expandItems : SemForest → Int → Finset NodeName
  | .nil, _ => ∅
  | .cons (.node nm _ ch) ts, layer =>
    ((if nm = NodeName.marker '$' ∨ nm = NodeName.marker '?' then (∅ : Finset NodeName) else {nm}) ∪
      (if layer - 1 = 0 then ∅ else expandItems ch (layer - 1))) ∪
    expandItems ts layer

/-- `_expand_tree(tree, layer)` on an exported tree: the root contributes
nothing (`isRoot=True`), its children are expanded with `layer - 1`. -/
def expandTree (t : SemTree) (layer : Int) : Finset NodeName :=
  if layer = 0 then ∅
  else
    match t with
    | .node _ _ ch => if layer - 1 = 0 then ∅ else expandItems ch (layer - 1)

/-- All payloads in a forest, in traversal order. -/
def forestNames : SemForest → List NodeName
  | .nil => []
  | .cons (.node nm _ ch) ts => nm :: (forestNames ch ++ forestNames ts)

/-- All non-root payloads of an exported tree. -/
def nonRootNames : SemTree → List NodeName
  | .node _ _ ch => forestNames ch

/-- All payloads of a subtree, its own first. -/
def treeNames : SemTree → List NodeName
  | .node nm _ ch => nm :: forestNames ch

/-- A word sense: id string `No`, surface forms, raw definition. -/
structure Sense where
  no : String
  enWord : String
  chWord : String
  defn : List Char
  deriving DecidableEq, Repr

/-- The in-memory dictionary state needed by the query façade: the sememe
registry keys and the senses in load order. -/
structure HND where
  sememes : List String
  senses : List Sense
  deriving DecidableEq, Repr

/-- Python `str.strip()` (whitespace trim), as applied to the surface
forms when the lookup indices are built. -/
def pyStrip (s : List Char) : List Char :=
  ((s.dropWhile (fun c => c = ' ' ∨ c = '\t' ∨ c = '\n' ∨ c = '\r' ∨ c = '\x0b' ∨ c = '\x0c')).reverse.dropWhile
    (fun c => c = ' ' ∨ c = '\t' ∨ c = '\n' ∨ c = '\r' ∨ c = '\x0b' ∨ c = '\x0c')).reverse

/-- The `en_map[word]` candidate list: senses whose stripped English form
is the word, in load order. -/
def enMatches (d : HND) (w : String) : List Sense :=
  d.senses.filter (fun s => pyStrip s.enWord.data = w.data)

/-- The `zh_map[word]` candidate list. -/
def zhMatches (d : HND) (w : String) : List Sense :=
  d.senses.filter (fun s => pyStrip s.chWord.data = w.data)

/-- `HowNetDict.__getitem__`: extend with the English matches, the Chinese
matches, then `res.extend(self.sense_dic[item])` — but a `Sense` object is
not iterable, so the sense-id branch (and likewise each iteration of the
`"I WANT ALL!"` branch) raises `TypeError` instead of contributing the
sense. -/
def getItem (d : HND) (w : String) : Except PyErr (List Sense) :=
  if w = "I WANT ALL!" then
    if d.senses.isEmpty then .ok [] else .error .typeError
  else if d.senses.any (fun s => s.no = w) then .error .typeError
  else .ok (enMatches d w ++ zhMatches d w)

/-- `HowNetDict.get`: language `"en"` and `"zh"` read the respective index
only; any other language value (including `None`) falls back to
`__getitem__`. -/
def hnGet (d : HND) (w : String) (lang : Option String) : Except PyErr (List Sense) :=
  match lang with
  | some l =>
    if l = "en" then .ok (enMatches d w)
    else if l = "zh" then .ok (zhMatches d w)
    else getItem d w
  | none => getItem d w

/-- Python string comparison (`<` on `str`): lexicographic on code
points. -/
def pyListLt : List Char → List Char → Bool
  | [], [] => false
  | [], _ :: _ => true
  | _ :: _, [] => false
  | a :: as, b :: bs => if a < b then true else if b < a then false else pyListLt as bs

/-- Stable insertion of a sense into a list sorted ascending by the `No`
key. -/
def insertByNo (s : Sense) : List Sense → List Sense
  | [] => [s]
  | t :: ts => if pyListLt s.no.data t.no.data then s :: t :: ts else t :: insertByNo s ts

/-- `queryResult.sort(key=lambda x: x.No)`: Python's sort is stable and
orders string keys lexicographically by code point; any stable sort by the
same key produces the same list. -/
def isortByNo : List Sense → List Sense
  | [] => []
  | s :: ss => insertByNo s (isortByNo ss)

/-- The candidate list actually iterated by `get_sememes_by_word`. -/
def queryCandidates (d : HND) (w : String) : Except PyErr (List Sense) :=
  Except.map isortByNo (getItem d w)

/-- One element of a `get_sememes_by_word` result: a tree (dict/tree
display) or a sense paired with its expanded sememe set (list display). -/
inductive QueryItem
  | tree (t : SemTree)
  | pair (s : Sense) (sememes : Finset NodeName)
  deriving DecidableEq

/-- Overall shape of a `get_sememes_by_word` result: a list, or (under
`merge`) one merged set. -/
inductive QueryResult
  | items (l : List QueryItem)
  | merged (s : Finset NodeName)
  deriving DecidableEq

/-- The sememe tree of one candidate sense. -/
def senseTreeOf (d : HND) (s : Sense) : Except PyErr SemTree :=
  genSememeTree d.sememes s.no s.defn

/-- The dict/tree display loop: each failing sense is reported and
skipped (`except ...: continue`), the others are kept in order. -/
def dictModeGo (d : HND) : List Sense → List QueryItem
  | [] => []
  | s :: rest =>
    match senseTreeOf d s with
    | .ok t => .tree t :: dictModeGo d rest
    | .error _ => dictModeGo d rest

/-- The list display loop without `merge`: the first failing sense is
reported and then re-raised (`raise e`), aborting the whole query. -/
def listModeGo (d : HND) (layer : Int) : List Sense → Except PyErr (List QueryItem)
  | [] => .ok []
  | s :: rest => do
    let t ← senseTreeOf d s
    let rest2 ← listModeGo d layer rest
    pure (.pair s (expandTree t layer) :: rest2)

/-- The list display loop with `merge`: unions of the expanded sets; a
failing sense likewise re-raises. -/
def listMergeGo (d : HND) (layer : Int) : List Sense → Except PyErr (Finset NodeName)
  | [] => .ok ∅
  | s :: rest => do
    let t ← senseTreeOf d s
    let rest2 ← listMergeGo d layer rest
    pure (expandTree t layer ∪ rest2)

/-- `HowNetDict.get_sememes_by_word`. Candidates come from `__getitem__`
sorted by `No`. In dict/tree display with `merge` set the accumulator is a
`set`, every `result.append` raises `AttributeError`, each is caught and
skipped, so the empty set is returned. The visual display (and an unknown
display string) only prints and returns the untouched empty accumulator;
the `K` cap affects printing only. -/
def getSememesByWord (d : HND) (w : String) (display : String) (merge : Bool)
    (layer : Int) (K : Option Int) : Except PyErr QueryResult := do
  let q ← queryCandidates d w
  if display = "dict" ∨ display = "tree" then
    if merge then pure (.merged ∅)
    else pure (.items (dictModeGo d q))
  else if display = "list" then
    if merge then do
      let s ← listMergeGo d layer q
      pure (.merged s)
    else do
      let l ← listModeGo d layer q
      pure (.items l)
  else pure (if merge then .merged ∅ else .items [])

/-- Taxonomy-relation state of the sememe registry: the per-sememe
`related_sememes_forward` and `related_sememes_backward` dicts, keyed by
(sememe key, relation); most recent insertion first, as lookup shadows
older entries exactly like a Python dict overwrite. -/
structure TaxState where
  fwd : List ((String × String) × String)
  bwd : List ((String × String) × String)
  deriving DecidableEq, Repr

/-- `head.related_sememes_forward[relation]` after the triple loop. -/
def lookupFwd (st : TaxState) (h r : String) : Option String :=
  (st.fwd.find? (fun e => e.1 = (h, r))).map (fun e => e.2)

/-- `tail.related_sememes_backward[relation]` after the triple loop. -/
def lookupBwd (st : TaxState) (t r : String) : Option String :=
  (st.bwd.find? (fun e => e.1 = (t, r))).map (fun e => e.2)

/-- `Sememe.add_related_sememes_forward`: `related_sememes_forward[relation]
= tail` on the head sememe. -/
def addRelatedSememesForward (st : TaxState) (h r t : String) : TaxState :=
  { st with fwd := ((h, r), t) :: st.fwd }

/-- `Sememe.add_related_sememes_backward`: `related_sememes_backward[relation]
= head` on the tail sememe. -/
def addRelatedSememesBackward (st : TaxState) (h r t : String) : TaxState :=
  { st with bwd := ((t, r), h) :: st.bwd }

/-- One iteration of the taxonomy-triple loop of `HowNetDict.__init__`:
both endpoint sememes are looked up in `sememe_dic` (a `KeyError` if either
is unregistered), then the forward and backward maps are updated. -/
def applyTriple (reg : List String) (st : TaxState) (tr : String × String × String) :
    Except PyErr TaxState :=
  if reg.contains tr.1 ∧ reg.contains tr.2.2 then
    .ok (addRelatedSememesBackward (addRelatedSememesForward st tr.1 tr.2.1 tr.2.2)
      tr.1 tr.2.1 tr.2.2)
  else .error .keyError

/-- The whole taxonomy-triple loop. -/
def applyTriples (reg : List String) (st : TaxState) (ts : List (String × String × String)) :
    Except PyErr TaxState :=
  List.foldlM (applyTriple reg) st ts

/-- Tail of the last triple in the sequence with the given head and
relation, if any. -/
def lastFwdTail (ts : List (String × String × String)) (h r : String) : Option String :=
  (ts.reverse.find? (fun tr => tr.1 = h ∧ tr.2.1 = r)).map (fun tr => tr.2.2)

/-- Head of the last triple in the sequence with the given tail and
relation, if any. -/
def lastBwdHead (ts : List (String × String × String)) (t r : String) : Option String :=
  (ts.reverse.find? (fun tr => tr.2.2 = t ∧ tr.2.1 = r)).map (fun tr => tr.1)

/-! ### Concrete example inputs used by counterexamples and witnesses -/

/-- Registry for the anaphora examples. -/
def anaDic : List String := ["belong|属于", "human|人"]

/-- The example definition of the specification (§8): a `~` marker directly
following the closing brace of its intended sibling. -/
def anaDefSpec : List Char := "\x7bbelong|属于:\x7bhuman|人\x7d~\x7d".data

/-- The same idea with the marker written in its own braces, the form in
which the parent scan of `_gen_sememe_tree` can actually resolve `~`. -/
def anaDefBraced : List Char := "\x7bbelong|属于:\x7b~\x7d\x7d".data

/-- A definition whose `~` marker carries a role (`x=`), to exhibit the
role copy performed by the anaphora collapse. -/
def anaDefRole : List Char := "\x7ba|b:x=\x7b~\x7d\x7d".data

/-- Registry with two sememes for the clause/flattening examples. -/
def twoDic : List String := ["a|b", "c|d"]

/-- Two disjoint top-level groups in a single clause: the second entity
never resolves a parent and is dropped from the exported tree. -/
def twoGroupsDef : List Char := "\x7ba|b\x7d\x7bc|d\x7d".data

/-- A well-nested single-clause definition. -/
def nestedDef : List Char := "\x7ba|b:\x7bc|d\x7d\x7d".data

/-- Registry for the multi-clause example. -/
def fourDic : List String := ["a|b", "c|d", "e|f", "g|h"]

/-- A definition with a second clause and a remark segment, both invisible
to the tree builder but scanned by the flattening routine. -/
def multiClauseDef : List Char := "\x7ba|b:\x7bc|d\x7d\x7d;\x7be|f\x7dRMK=\x7bg|h\x7d".data

/-- A malformed definition: no closing delimiter follows the `|`. -/
def malformedDef : List Char := "\x7bx|".data

/-- Sense whose definition has no entity at all: parsing it raises. -/
def senseBad : Sense := ⟨"1", "w", "甲", "\x7b".data⟩

/-- Sense with a well-formed one-sememe definition. -/
def senseGood : Sense := ⟨"2", "w", "乙", "\x7ba|b\x7d".data⟩

/-- Dictionary in which the word `w` has one failing and one parsable
sense. -/
def mixedHND : HND := ⟨["a|b"], [senseBad, senseGood]⟩

/-- Sense with id `9`. -/
def senseNine : Sense := ⟨"9", "w", "x", "\x7ba|b\x7d".data⟩

/-- Sense with id `10`. -/
def senseTen : Sense := ⟨"10", "w", "y", "\x7ba|b\x7d".data⟩

/-- Dictionary in which the word `w` has senses with ids `9` and `10`. -/
def idHND : HND := ⟨["a|b"], [senseNine, senseTen]⟩

/-- Sense whose English and Chinese surface forms coincide, reachable via
both lookup indices. -/
def dupSense : Sense := ⟨"3", "dup", "dup", "\x7ba|b\x7d".data⟩

/-- Dictionary holding only `dupSense`. -/
def dupHND : HND := ⟨["a|b"], [dupSense]⟩

/-- Decidable statement that every entity after the first one resolved a
parent during `_gen_sememe_tree`'s resolution pass for this definition
string (vacuously true when scanning or resolution fails). -/
def allParentsResolved (dic : List String) (df : List Char) : Bool :=
  match scanEnts dic (firstClause df) with
  | .error _ => true
  | .ok ents =>
    match resolveAll (firstClause df) ents with
    | .error _ => true
    | .ok nodes =>
      (List.range nodes.length).all (fun i => i = 0 || ((nodes.getD i default).parent).isSome)

/-! ### Basic `Except` lemmas -/

@[simp]
theorem except_ok_bind {ε α β : Type} (a : α) (f : α → Except ε β) :
    (Except.ok a >>= f) = f a := rfl

@[simp]
theorem except_error_bind {ε α β : Type} (e : ε) (f : α → Except ε β) :
    ((Except.error e : Except ε α) >>= f) = .error e := rfl

@[simp]
theorem except_map_ok {ε α β : Type} (f : α → β) (a : α) :
    Except.map f (Except.ok a : Except ε α) = .ok (f a) := rfl

@[simp]
theorem except_map_error {ε α β : Type} (f : α → β) (e : ε) :
    Except.map f (Except.error e : Except ε α) = .error e := rfl

/-! ### C7: taxonomy triples -/

theorem lookupFwd_addF (st : TaxState) (h r t : String) :
    lookupFwd (addRelatedSememesForward st h r t) h r = some t := by
  simp [lookupFwd, addRelatedSememesForward, List.find?]

theorem lookupFwd_addF_ne (st : TaxState) (h r t h2 r2 : String) (hne : ¬(h = h2 ∧ r = r2)) :
    lookupFwd (addRelatedSememesForward st h r t) h2 r2 = lookupFwd st h2 r2 := by
  simp only [lookupFwd, addRelatedSememesForward, List.find?]
  rw [show decide ((h, r) = (h2, r2)) = false by
    simp only [decide_eq_false_iff_not, Prod.mk.injEq]; exact hne]

theorem lookupBwd_addB (st : TaxState) (h r t : String) :
    lookupBwd (addRelatedSememesBackward st h r t) t r = some h := by
  simp [lookupBwd, addRelatedSememesBackward, List.find?]

theorem lookupBwd_addB_ne (st : TaxState) (h r t t2 r2 : String) (hne : ¬(t = t2 ∧ r = r2)) :
    lookupBwd (addRelatedSememesBackward st h r t) t2 r2 = lookupBwd st t2 r2 := by
  simp only [lookupBwd, addRelatedSememesBackward, List.find?]
  rw [show decide ((t, r) = (t2, r2)) = false by
    simp only [decide_eq_false_iff_not, Prod.mk.injEq]; exact hne]

theorem lookupFwd_addB (st : TaxState) (h r t h2 r2 : String) :
    lookupFwd (addRelatedSememesBackward st h r t) h2 r2 = lookupFwd st h2 r2 := rfl

theorem lookupBwd_addF (st : TaxState) (h r t t2 r2 : String) :
    lookupBwd (addRelatedSememesForward st h r t) t2 r2 = lookupBwd st t2 r2 := rfl

theorem lastFwdTail_cons (th tr1 tt : String) (rest : List (String × String × String))
    (h r : String) :
    lastFwdTail ((th, tr1, tt) :: rest) h r =
      match lastFwdTail rest h r with
      | some t => some t
      | none => if th = h ∧ tr1 = r then some tt else none := by
  unfold lastFwdTail
  rw [List.reverse_cons, List.find?_append]
  cases hf : List.find? (fun tr => decide (tr.1 = h ∧ tr.2.1 = r)) rest.reverse with
  | none =>
    simp only [hf, Option.map_none, Option.or]
    by_cases hc : th = h ∧ tr1 = r
    · simp [List.find?, hc]
    · simp [List.find?, hc]
  | some x => simp [hf, Option.or]

theorem lastBwdHead_cons (th tr1 tt : String) (rest : List (String × String × String))
    (t r : String) :
    lastBwdHead ((th, tr1, tt) :: rest) t r =
      match lastBwdHead rest t r with
      | some h => some h
      | none => if tt = t ∧ tr1 = r then some th else none := by
  unfold lastBwdHead
  rw [List.reverse_cons, List.find?_append]
  cases hf : List.find? (fun tr => decide (tr.2.2 = t ∧ tr.2.1 = r)) rest.reverse with
  | none =>
    simp only [hf, Option.map_none, Option.or]
    by_cases hc : tt = t ∧ tr1 = r
    · simp [List.find?, hc]
    · simp [List.find?, hc]
  | some x => simp [hf, Option.or]

theorem applyTriples_fwd_lookup (reg : List String) :
    ∀ (ts : List (String × String × String)) (st st2 : TaxState),
      applyTriples reg st ts = .ok st2 →
      ∀ h r, lookupFwd st2 h r =
        match lastFwdTail ts h r with
        | some t => some t
        | none => lookupFwd st h r := by
  intro ts
  induction ts with
  | nil =>
    intro st st2 hok h r
    simp only [applyTriples, List.foldlM_nil] at hok
    cases hok
    rfl
  | cons tr rest ih =>
    intro st st2 hok h r
    obtain ⟨th, tr1, tt⟩ := tr
    simp only [applyTriples, List.foldlM_cons] at hok
    cases hstep : applyTriple reg st (th, tr1, tt) with
    | error e => rw [hstep] at hok; cases hok
    | ok st1 =>
      rw [hstep] at hok
      simp only [except_ok_bind] at hok
      have hrec := ih st1 st2 hok h r
      unfold applyTriple at hstep
      by_cases hreg : reg.contains th = true ∧ reg.contains tt = true
      · rw [if_pos (by exact_mod_cast hreg)] at hstep
        cases hstep
        rw [lastFwdTail_cons, hrec]
        cases hlast : lastFwdTail rest h r with
        | some t0 => simp
        | none =>
          simp only []
          rw [lookupFwd_addB]
          by_cases hc : th = h ∧ tr1 = r
          · obtain ⟨h1, h2⟩ := hc
            subst h1; subst h2
            simp [lookupFwd_addF]
          · rw [if_neg hc, lookupFwd_addF_ne st th tr1 tt h r hc]
      · rw [if_neg (by exact_mod_cast hreg)] at hstep
        cases hstep

theorem applyTriples_bwd_lookup (reg : List String) :
    ∀ (ts : List (String × String × String)) (st st2 : TaxState),
      applyTriples reg st ts = .ok st2 →
      ∀ t r, lookupBwd st2 t r =
        match lastBwdHead ts t r with
        | some h => some h
        | none => lookupBwd st t r := by
  intro ts
  induction ts with
  | nil =>
    intro st st2 hok t r
    simp only [applyTriples, List.foldlM_nil] at hok
    cases hok
    rfl
  | cons tr rest ih =>
    intro st st2 hok t r
    obtain ⟨th, tr1, tt⟩ := tr
    simp only [applyTriples, List.foldlM_cons] at hok
    cases hstep : applyTriple reg st (th, tr1, tt) with
    | error e => rw [hstep] at hok; cases hok
    | ok st1 =>
      rw [hstep] at hok
      simp only [except_ok_bind] at hok
      have hrec := ih st1 st2 hok t r
      unfold applyTriple at hstep
      by_cases hreg : reg.contains th = true ∧ reg.contains tt = true
      · rw [if_pos (by exact_mod_cast hreg)] at hstep
        cases hstep
        rw [lastBwdHead_cons, hrec]
        cases hlast : lastBwdHead rest t r with
        | some h0 => simp
        | none =>
          simp only []
          by_cases hc : tt = t ∧ tr1 = r
          · obtain ⟨h1, h2⟩ := hc
            subst h1; subst h2
            simp [lookupBwd_addB]
          · rw [if_neg hc,
              lookupBwd_addB_ne (addRelatedSememesForward st th tr1 tt) th tr1 tt t r hc,
              lookupBwd_addF]
      · rw [if_neg (by exact_mod_cast hreg)] at hstep
        cases hstep

theorem applyTriples_ok (reg : List String) :
    ∀ (ts : List (String × String × String)) (st : TaxState),
      (∀ tr ∈ ts, reg.contains tr.1 = true ∧ reg.contains tr.2.2 = true) →
      ∃ st2, applyTriples reg st ts = .ok st2 := by
  intro ts
  induction ts with
  | nil => intro st _; exact ⟨st, rfl⟩
  | cons tr rest ih =>
    intro st hreg
    have h1 := hreg tr (by simp)
    have hstep : applyTriple reg st tr =
        .ok (addRelatedSememesBackward (addRelatedSememesForward st tr.1 tr.2.1 tr.2.2)
          tr.1 tr.2.1 tr.2.2) := by
      unfold applyTriple
      rw [if_pos (by exact_mod_cast h1)]
    obtain ⟨st2, h2⟩ := ih (addRelatedSememesBackward (addRelatedSememesForward st tr.1 tr.2.1 tr.2.2)
        tr.1 tr.2.1 tr.2.2) (fun x hx => hreg x (by simp [hx]))
    refine ⟨st2, ?_⟩
    simp only [applyTriples, List.foldlM_cons, hstep, except_ok_bind]
    exact h2

/-- C7: applying any sequence of taxonomy triples over registered sememes
never raises; afterwards each head's forward map holds, per relation, the
tail of the last triple applied with that (head, relation) pair — so a
single applied triple (h, r, t) yields `forward(h, r) = t` and
`backward(t, r) = h`, and a later triple with the same (head, relation)
pair silently overwrites the earlier entry (last-write-wins), the backward
maps behaving symmetrically per (tail, relation). -/
theorem claim_C7_taxonomy_last_write_wins (reg : List String)
    (ts : List (String × String × String)) (st : TaxState)
    (hreg : ∀ tr ∈ ts, reg.contains tr.1 = true ∧ reg.contains tr.2.2 = true) :
    ∃ st2, applyTriples reg st ts = .ok st2 ∧
      (∀ h r, lookupFwd st2 h r =
        match lastFwdTail ts h r with
        | some t => some t
        | none => lookupFwd st h r) ∧
      (∀ t r, lookupBwd st2 t r =
        match lastBwdHead ts t r with
        | some h => some h
        | none => lookupBwd st t r) := by
  obtain ⟨st2, hok⟩ := applyTriples_ok reg ts st hreg
  exact ⟨st2, hok, applyTriples_fwd_lookup reg ts st st2 hok,
    applyTriples_bwd_lookup reg ts st st2 hok⟩

/-- Witness for C7: two triples sharing the head `x|甲` and relation
`sub`; the final forward entry is the tail of the later one. -/
theorem claim_C7_witness :
    ∃ st2, applyTriples ["x|甲", "y|乙", "z|丙"] ⟨[], []⟩
        [("x|甲", "sub", "y|乙"), ("x|甲", "sub", "z|丙")] = .ok st2 ∧
      (∀ h r, lookupFwd st2 h r =
        match lastFwdTail [("x|甲", "sub", "y|乙"), ("x|甲", "sub", "z|丙")] h r with
        | some t => some t
        | none => lookupFwd ⟨[], []⟩ h r) ∧
      (∀ t r, lookupBwd st2 t r =
        match lastBwdHead [("x|甲", "sub", "y|乙"), ("x|甲", "sub", "z|丙")] t r with
        | some h => some h
        | none => lookupBwd ⟨[], []⟩ t r) :=
  claim_C7_taxonomy_last_write_wins ["x|甲", "y|乙", "z|丙"]
    [("x|甲", "sub", "y|乙"), ("x|甲", "sub", "z|丙")] ⟨[], []⟩ (by decide)

/-- C3 (code bug): with the language unset, `__getitem__` on a word that
is a registered sense id executes `res.extend(self.sense_dic[item])` on a
non-iterable `Sense` object, raising `TypeError` instead of returning the
documented candidate list; the documented `"I WANT ALL!"` query raises the
same way. The claimed duplication for a sense reachable through both
surface-form indices does hold when no sense id collides with the word. -/
theorem claim_C3_getitem_typeerror :
    getItem idHND "9" = .error .typeError ∧
    getItem idHND "I WANT ALL!" = .error .typeError ∧
    getItem dupHND "dup" = .ok [dupSense, dupSense] := by
  refine ⟨rfl, rfl, ?_⟩
  decide

/-! ### Scanning and tree-construction lemmas -/

theorem scanEntsA_no_special (dic : List String) (s : List Char)
    (hs : ∀ c ∈ s, c ≠ '|' ∧ c ≠ '~' ∧ c ≠ '?' ∧ c ≠ '$') :
    ∀ k i, scanEntsA k dic s i = .ok [] := by
  intro k
  induction k with
  | zero => intro i; rfl
  | succ k ih =>
    intro i
    cases hg : s.get? i with
    | none => unfold scanEntsA; rw [hg]
    | some c =>
      have hc := hs c (List.get?_mem hg)
      unfold scanEntsA
      simp only [hg]
      rw [if_neg (by tauto), if_neg (by tauto)]
      exact ih (i+1)

/-- C10: a definition whose first clause contains neither a `|` nor any
anaphora marker produces no entity, so `node[0].parent = root` indexes an
empty list and `_gen_sememe_tree` raises `IndexError`; and every
successful parse returns a root (payload: the sense, role `"sense"`) with
exactly one child subtree, never a bare root. -/
theorem claim_C10_no_entity_raises :
    (∀ (dic : List String) (no : String) (df : List Char),
      (∀ c ∈ firstClause df, c ≠ '|' ∧ c ≠ '~' ∧ c ≠ '?' ∧ c ≠ '$') →
      genSememeTree dic no df = .error .indexError) ∧
    (∀ (dic : List String) (no : String) (df : List Char) (t : SemTree),
      genSememeTree dic no df = .ok t →
      ∃ c, t = .node (.sense no) "sense" (.cons c .nil)) := by
  constructor
  · intro dic no df hs
    unfold genSememeTree
    simp only []
    rw [show scanEnts dic (firstClause df) = .ok [] from
      scanEntsA_no_special dic (firstClause df) hs (firstClause df).length 0]
    rfl
  · intro dic no df t hok
    unfold genSememeTree at hok
    simp only [] at hok
    cases h1 : scanEnts dic (firstClause df) with
    | error e => rw [h1] at hok; cases hok
    | ok ents =>
      rw [h1] at hok
      simp only [except_ok_bind] at hok
      cases h2 : resolveAll (firstClause df) ents with
      | error e => rw [h2] at hok; cases hok
      | ok nodes =>
        rw [h2] at hok
        simp only [except_ok_bind] at hok
        cases h3 : collapse nodes (pointerOf ents) with
        | error e => rw [h3] at hok; cases hok
        | ok nodes2 =>
          rw [h3] at hok
          simp only [except_ok_bind] at hok
          by_cases h4 : nodes2.length = 0
          · rw [if_pos h4] at hok; cases hok
          · rw [if_neg h4] at hok
            cases hok
            exact ⟨buildTree nodes2 0, rfl⟩

/-- Witness for C10: the one-character definition `{` yields `IndexError`;
nested well-formed input yields a root with one child. -/
theorem claim_C10_witness :
    genSememeTree twoDic "1" "\x7b".data = .error .indexError ∧
    ∃ c, SemTree.node (.sense "1") "sense"
        (.cons (SemTree.node (.sem "a|b") "None"
          (.cons (.node (.sem "c|d") "None" .nil) .nil)) .nil) =
      SemTree.node (.sense "1") "sense" (.cons c .nil) := by
  constructor
  · exact claim_C10_no_entity_raises.1 twoDic "1" "\x7b".data (by decide)
  · exact claim_C10_no_entity_raises.2 twoDic "1" nestedDef
      (SemTree.node (.sense "1") "sense"
        (.cons (SemTree.node (.sem "a|b") "None"
          (.cons (.node (.sem "c|d") "None" .nil) .nil)) .nil)) rfl

theorem resolveNode_name (s : List Char) (ents : List Ent) (i : Nat) (nd : RNode)
    (hok : resolveNode s ents i = .ok nd) :
    nd.name = (ents.getD i default).name := by
  simp only [resolveNode] at hok
  cases h1 : findCursor s (ents.getD i default).start with
  | error e => rw [h1] at hok; cases hok
  | ok cur =>
    rw [h1] at hok
    simp only [except_ok_bind] at hok
    by_cases h2 : i = 0
    · rw [if_pos h2] at hok
      cases hok
      rfl
    · rw [if_neg h2] at hok
      cases h3 : roleScan s (ents.getD i default).start
          (rightRangeOf ents i (findParentGo ents cur i)) with
      | error e => rw [h3] at hok; cases hok
      | ok rbre =>
        rw [h3] at hok
        simp only [except_ok_bind] at hok
        cases hok
        rfl

theorem resolveNode_parent (s : List Char) (ents : List Ent) (i : Nat) (nd : RNode)
    (hok : resolveNode s ents i = .ok nd) :
    ∃ cur, findCursor s ((ents.getD i default).start) = .ok cur ∧
      nd.parent = findParentGo ents cur i := by
  simp only [resolveNode] at hok
  cases h1 : findCursor s (ents.getD i default).start with
  | error e => rw [h1] at hok; cases hok
  | ok cur =>
    rw [h1] at hok
    simp only [except_ok_bind] at hok
    refine ⟨cur, rfl, ?_⟩
    by_cases h2 : i = 0
    · rw [if_pos h2] at hok
      cases hok
      rfl
    · rw [if_neg h2] at hok
      cases h3 : roleScan s (ents.getD i default).start
          (rightRangeOf ents i (findParentGo ents cur i)) with
      | error e => rw [h3] at hok; cases hok
      | ok rbre =>
        rw [h3] at hok
        simp only [except_ok_bind] at hok
        cases hok
        rfl

theorem findParentGo_lt (ents : List Ent) (cur : Int) :
    ∀ i j, findParentGo ents cur i = some j → j < i := by
  intro i
  induction i with
  | zero => intro j h; cases h
  | succ i ih =>
    intro j h
    unfold findParentGo at h
    by_cases hc : (ents.getD i default).stop = cur
    · rw [if_pos hc] at h
      cases h
      omega
    · rw [if_neg hc] at h
      have := ih j h
      omega

theorem resolveAllA_pointwise (s : List Char) (ents : List Ent) :
    ∀ k i l, resolveAllA k s ents i = .ok l →
      l.length = min k (ents.length - i) ∧
      ∀ m, m < l.length → resolveNode s ents (i + m) = .ok (l.getD m default) := by
  intro k
  induction k with
  | zero =>
    intro i l h
    cases h
    simp
  | succ k ih =>
    intro i l h
    unfold resolveAllA at h
    by_cases hi : i < ents.length
    · rw [if_pos hi] at h
      cases h1 : resolveNode s ents i with
      | error e => rw [h1] at h; cases h
      | ok nd =>
        rw [h1] at h
        simp only [except_ok_bind] at h
        cases h2 : resolveAllA k s ents (i+1) with
        | error e => rw [h2] at h; cases h
        | ok rest =>
          rw [h2] at h
          simp only [except_ok_bind] at h
          cases h
          obtain ⟨hlen, hpt⟩ := ih (i+1) rest h2
          constructor
          · simp only [List.length_cons, hlen]
            omega
          · intro m hm
            cases m with
            | zero => simpa using h1
            | succ m =>
              have hrec := hpt m (by simpa using hm)
              have heq : i + (m + 1) = i + 1 + m := by omega
              rw [heq, List.getD_cons_succ]
              exact hrec
    · rw [if_neg hi] at h
      cases h
      constructor
      · have hz : ents.length - i = 0 := by omega
        simp [hz]
      · intro m hm
        simp at hm

theorem getD_map {α β : Type} (f : α → β) (l : List α) (j : Nat) (d : α) :
    (l.map f).getD j (f d) = f (l.getD j d) := by
  rw [List.getD_eq_getElem?_getD, List.getD_eq_getElem?_getD, List.getElem?_map]
  cases l[j]? <;> rfl

theorem set_getD_self {α : Type} : ∀ (l : List α) (j : Nat) (d : α),
    l.set j (l.getD j d) = l := by
  intro l
  induction l with
  | nil => intro j d; rfl
  | cons a t ih =>
    intro j d
    cases j with
    | zero => rfl
    | succ j => simpa [List.set, List.getD_cons_succ] using ih j d

theorem collapseStep_name (ns : List RNode) (i : Nat) (ns2 : List RNode)
    (hok : collapseStep ns i = .ok ns2) :
    ns2.map RNode.name = ns.map RNode.name := by
  unfold collapseStep at hok
  cases hp : (ns.getD i default).parent with
  | none => rw [hp] at hok; cases hok
  | some p =>
    rw [hp] at hok
    cases hok
    have h1 : (ns.set p { ns.getD p default with role := (ns.getD i default).role }).map RNode.name
        = ns.map RNode.name := by
      rw [List.map_set]
      rw [show RNode.name { ns.getD p default with role := (ns.getD i default).role }
        = RNode.name (ns.getD p default) from rfl]
      rw [← getD_map RNode.name ns p default, set_getD_self]
    rw [List.map_set, h1]
    rw [show RNode.name
        { (ns.set p { ns.getD p default with role := (ns.getD i default).role }).getD i default
          with parent := none }
      = RNode.name ((ns.set p
          { ns.getD p default with role := (ns.getD i default).role }).getD i default) from rfl]
    rw [← getD_map RNode.name (ns.set p { ns.getD p default with role := (ns.getD i default).role })
      i default, h1, set_getD_self]

theorem collapse_name : ∀ (ptr : List Nat) (ns ns2 : List RNode),
    collapse ns ptr = .ok ns2 → ns2.map RNode.name = ns.map RNode.name := by
  intro ptr
  induction ptr with
  | nil =>
    intro ns ns2 h
    cases h
    rfl
  | cons j rest ih =>
    intro ns ns2 h
    simp only [collapse, List.foldlM_cons] at h
    cases h1 : collapseStep ns j with
    | error e => rw [h1] at h; cases h
    | ok ns1 =>
      rw [h1] at h
      simp only [except_ok_bind] at h
      rw [ih ns1 ns2 h, collapseStep_name ns j ns1 h1]

theorem getD_set {α : Type} [Inhabited α] (l : List α) (j m : Nat) (x : α) :
    (l.set j x).getD m default = if j = m ∧ j < l.length then x else l.getD m default := by
  by_cases h : j = m ∧ j < l.length
  · obtain ⟨h1, h2⟩ := h
    subst h1
    rw [if_pos ⟨rfl, h2⟩, List.getD_eq_getElem?_getD, List.getElem?_set_self',
      List.getElem?_eq_getElem h2]
    rfl
  · rw [if_neg h]
    rcases not_and_or.mp h with h1 | h1
    · rw [List.getD_eq_getElem?_getD, List.getElem?_set_ne h1, ← List.getD_eq_getElem?_getD]
    · rw [List.set_eq_of_length_le (by omega)]

theorem collapseStep_parent (ns : List RNode) (i : Nat) (ns2 : List RNode)
    (hok : collapseStep ns i = .ok ns2) (m : Nat) :
    (ns2.getD m default).parent = if m = i then none else (ns.getD m default).parent := by
  unfold collapseStep at hok
  cases hp : (ns.getD i default).parent with
  | none => rw [hp] at hok; cases hok
  | some p =>
    rw [hp] at hok
    have hilen : i < ns.length := by
      by_contra hc
      rw [List.getD_eq_getElem?_getD, List.getElem?_eq_none_iff.mpr (by omega)] at hp
      cases hp
    cases hok
    rw [getD_set]
    by_cases hm : i = m
    · rw [if_pos ⟨hm, by rw [List.length_set]; omega⟩, if_pos hm.symm]
    · rw [if_neg (by intro hc; exact hm hc.1), if_neg (fun hc => hm hc.symm), getD_set]
      by_cases hpm : p = m ∧ p < ns.length
      · rw [if_pos hpm]
        obtain ⟨h1, _⟩ := hpm
        subst h1
        rfl
      · rw [if_neg hpm]

theorem collapse_parent : ∀ (ptr : List Nat) (ns ns2 : List RNode),
    collapse ns ptr = .ok ns2 → ∀ m,
      (ns2.getD m default).parent = if m ∈ ptr then none else (ns.getD m default).parent := by
  intro ptr
  induction ptr with
  | nil =>
    intro ns ns2 h m
    cases h
    simp
  | cons j rest ih =>
    intro ns ns2 h m
    simp only [collapse, List.foldlM_cons] at h
    cases h1 : collapseStep ns j with
    | error e => rw [h1] at h; cases h
    | ok ns1 =>
      rw [h1] at h
      simp only [except_ok_bind] at h
      have h2 := ih ns1 ns2 h m
      rw [h2, collapseStep_parent ns j ns1 h1 m]
      by_cases hr : m ∈ rest
      · simp [hr]
      · by_cases hj : m = j
        · simp [hr, hj]
        · simp [hr, hj, List.mem_cons]

theorem collapse_orig_parent : ∀ (ptr : List Nat) (ns ns2 : List RNode),
    collapse ns ptr = .ok ns2 → ∀ i ∈ ptr, (ns.getD i default).parent ≠ none := by
  intro ptr
  induction ptr with
  | nil => intro ns ns2 _ i hi; cases hi
  | cons j rest ih =>
    intro ns ns2 h i hi
    simp only [collapse, List.foldlM_cons] at h
    cases h1 : collapseStep ns j with
    | error e => rw [h1] at h; cases h
    | ok ns1 =>
      rw [h1] at h
      simp only [except_ok_bind] at h
      rcases List.mem_cons.mp hi with hij | hir
      · subst hij
        unfold collapseStep at h1
        cases hp : (ns.getD i default).parent with
        | none => rw [hp] at h1; cases h1
        | some p => simp [hp]
      · have h2 := ih ns1 ns2 h i hir
        have h3 := collapseStep_parent ns j ns1 h1 i
        by_cases hij : i = j
        · subst hij
          unfold collapseStep at h1
          cases hp : (ns.getD i default).parent with
          | none => rw [hp] at h1; cases h1
          | some p => simp [hp]
        · rw [if_neg hij] at h3
          rw [← h3]
          exact h2

theorem forestNames_forestOf : ∀ l : List SemTree,
    forestNames (forestOf l) = l.flatMap treeNames := by
  intro l
  induction l with
  | nil => rfl
  | cons t ts ih =>
    obtain ⟨nm, r, ch⟩ := t
    simp [forestOf, forestNames, treeNames, ih]

theorem forestNames_single (t : SemTree) :
    forestNames (SemForest.cons t SemForest.nil) = treeNames t := by
  obtain ⟨nm, r, ch⟩ := t
  simp [forestNames, treeNames]

theorem name_getD_mem (ns : List RNode) (j : Nat) (hj : j < ns.length) :
    (ns.getD j default).name ∈ ns.map RNode.name := by
  rw [List.getD_eq_getElem?_getD, List.getElem?_eq_getElem hj]
  exact List.mem_map.mpr ⟨ns[j], List.getElem_mem hj, rfl⟩

theorem mem_childrenIdx (ns : List RNode) (j i : Nat) :
    i ∈ childrenIdx ns j ↔
      i < ns.length ∧ j < i ∧ (ns.getD i default).parent = some j := by
  simp [childrenIdx, List.mem_filter, List.mem_range, and_assoc]

theorem treeNames_buildTreeA_parent (ns : List RNode) :
    ∀ k j nm, nm ∈ treeNames (buildTreeA k ns j) →
      nm = (ns.getD j default).name ∨
      ∃ i, i < ns.length ∧ (ns.getD i default).parent ≠ none ∧
        nm = (ns.getD i default).name := by
  intro k
  induction k with
  | zero =>
    intro j nm h
    simp only [buildTreeA, treeNames, forestNames, List.mem_singleton] at h
    exact Or.inl h
  | succ k ih =>
    intro j nm h
    simp only [buildTreeA, treeNames] at h
    rcases List.mem_cons.mp h with h1 | h1
    · exact Or.inl h1
    · rw [forestNames_forestOf, List.mem_flatMap] at h1
      obtain ⟨sub, hsub, hnm⟩ := h1
      rw [List.mem_map] at hsub
      obtain ⟨i, hi, rfl⟩ := hsub
      obtain ⟨hilen, _, hpar⟩ := (mem_childrenIdx ns j i).mp hi
      rcases ih i nm hnm with h2 | h2
      · exact Or.inr ⟨i, hilen, by rw [hpar]; simp, h2⟩
      · exact Or.inr h2

theorem treeNames_buildTreeA_mem (ns : List RNode) (k j : Nat) (hj : j < ns.length) :
    ∀ nm ∈ treeNames (buildTreeA k ns j), nm ∈ ns.map RNode.name := by
  intro nm h
  rcases treeNames_buildTreeA_parent ns k j nm h with h1 | ⟨i, hi, _, h2⟩
  · rw [h1]; exact name_getD_mem ns j hj
  · rw [h2]; exact name_getD_mem ns i hi

theorem mem_pointerOf (ents : List Ent) (i : Nat) :
    i ∈ pointerOf ents ↔
      i < ents.length ∧ (ents.getD i default).name = NodeName.marker '~' := by
  simp [pointerOf, List.mem_filter, List.mem_range]

theorem name_getD_of_map_eq (ns ns2 : List RNode)
    (h : ns2.map RNode.name = ns.map RNode.name) (m : Nat) :
    (ns2.getD m default).name = (ns.getD m default).name := by
  have h2 := congrArg (fun l => l.getD m (RNode.name default)) h
  simpa only [getD_map] using h2

theorem genSememeTree_ok_elim (dic : List String) (no : String) (df : List Char) (t : SemTree)
    (hok : genSememeTree dic no df = .ok t) :
    ∃ ents nodes nodes2,
      scanEnts dic (firstClause df) = .ok ents ∧
      resolveAll (firstClause df) ents = .ok nodes ∧
      collapse nodes (pointerOf ents) = .ok nodes2 ∧
      nodes2.length ≠ 0 ∧
      t = .node (.sense no) "sense" (.cons (buildTree nodes2 0) .nil) := by
  unfold genSememeTree at hok
  simp only [] at hok
  cases h1 : scanEnts dic (firstClause df) with
  | error e => rw [h1] at hok; cases hok
  | ok ents =>
    rw [h1] at hok
    simp only [except_ok_bind] at hok
    cases h2 : resolveAll (firstClause df) ents with
    | error e => rw [h2] at hok; cases hok
    | ok nodes =>
      rw [h2] at hok
      simp only [except_ok_bind] at hok
      cases h3 : collapse nodes (pointerOf ents) with
      | error e => rw [h3] at hok; cases hok
      | ok nodes2 =>
        rw [h3] at hok
        simp only [except_ok_bind] at hok
        by_cases h4 : nodes2.length = 0
        · rw [if_pos h4] at hok; cases hok
        · rw [if_neg h4] at hok
          cases hok
          exact ⟨ents, nodes, nodes2, rfl, h2, h3, h4, rfl⟩

theorem resolveAll_name (s : List Char) (ents : List Ent) (nodes : List RNode)
    (hok : resolveAll s ents = .ok nodes) :
    nodes.length = ents.length ∧
    ∀ m, m < nodes.length → (nodes.getD m default).name = (ents.getD m default).name := by
  obtain ⟨hlen, hpt⟩ := resolveAllA_pointwise s ents ents.length 0 nodes hok
  constructor
  · simpa using hlen
  · intro m hm
    have := resolveNode_name s ents (0 + m) (nodes.getD m default) (hpt m hm)
    simpa using this

theorem resolveAll_parent_lt (s : List Char) (ents : List Ent) (nodes : List RNode)
    (hok : resolveAll s ents = .ok nodes) :
    ∀ m j, m < nodes.length → (nodes.getD m default).parent = some j → j < m := by
  obtain ⟨hlen, hpt⟩ := resolveAllA_pointwise s ents ents.length 0 nodes hok
  intro m j hm hp
  obtain ⟨cur, hcur, hpar⟩ := resolveNode_parent s ents (0 + m) (nodes.getD m default)
    (hpt m hm)
  rw [hp] at hpar
  have := findParentGo_lt ents cur (0 + m) j hpar.symm
  omega

theorem resolveAll_parent_zero (s : List Char) (ents : List Ent) (nodes : List RNode)
    (hok : resolveAll s ents = .ok nodes) (h0 : 0 < nodes.length) :
    (nodes.getD 0 default).parent = none := by
  obtain ⟨hlen, hpt⟩ := resolveAllA_pointwise s ents ents.length 0 nodes hok
  obtain ⟨cur, hcur, hpar⟩ := resolveNode_parent s ents 0 (nodes.getD 0 default) (hpt 0 h0)
  rw [hpar]
  rfl

theorem genSememeTree_no_tilde (dic : List String) (no : String) (df : List Char) (t : SemTree)
    (hok : genSememeTree dic no df = .ok t) :
    NodeName.marker '~' ∉ nonRootNames t := by
  obtain ⟨ents, nodes, nodes2, h1, h2, h3, h4, rfl⟩ := genSememeTree_ok_elim dic no df t hok
  intro hmem
  simp only [nonRootNames, forestNames_single] at hmem
  obtain ⟨hlen, hname⟩ := resolveAll_name (firstClause df) ents nodes h2
  have hmapeq := collapse_name (pointerOf ents) nodes nodes2 h3
  have hlen2 : nodes2.length = nodes.length := by
    have := congrArg List.length hmapeq
    simpa using this
  rcases treeNames_buildTreeA_parent nodes2 nodes2.length 0 (NodeName.marker '~') hmem
    with hz | ⟨i, hi, hpne, hni⟩
  · -- the first entity would be a `~`, but entity 0 never resolves a parent,
    -- so its collapse step would have raised
    have h0lt : 0 < nodes2.length := by omega
    have hn0 : (ents.getD 0 default).name = NodeName.marker '~' := by
      rw [← hname 0 (by omega), ← name_getD_of_map_eq nodes nodes2 hmapeq 0]
      exact hz.symm
    have h0ptr : 0 ∈ pointerOf ents := (mem_pointerOf ents 0).mpr ⟨by omega, hn0⟩
    have := collapse_orig_parent (pointerOf ents) nodes nodes2 h3 0 h0ptr
    exact this (resolveAll_parent_zero (firstClause df) ents nodes h2 (by omega))
  · -- an attached node would be a `~`, but every `~` is detached by collapse
    have hni2 : (ents.getD i default).name = NodeName.marker '~' := by
      rw [← hname i (by omega), ← name_getD_of_map_eq nodes nodes2 hmapeq i]
      exact hni.symm
    have hiptr : i ∈ pointerOf ents := (mem_pointerOf ents i).mpr ⟨by omega, hni2⟩
    have := collapse_parent (pointerOf ents) nodes nodes2 h3 i
    rw [if_pos hiptr] at this
    exact hpne this

theorem map_eq_of_pointwise {α β γ : Type} [Inhabited α] [Inhabited β]
    (f : α → γ) (g : β → γ) (l1 : List α) (l2 : List β)
    (hlen : l1.length = l2.length)
    (hpt : ∀ m, m < l1.length → f (l1.getD m default) = g (l2.getD m default)) :
    l1.map f = l2.map g := by
  apply List.ext_getElem?
  intro n
  rw [List.getElem?_map, List.getElem?_map]
  by_cases h : n < l1.length
  · rw [List.getElem?_eq_getElem h, List.getElem?_eq_getElem (by omega)]
    have hp := hpt n h
    rw [List.getD_eq_getElem?_getD, List.getElem?_eq_getElem h,
      List.getD_eq_getElem?_getD, List.getElem?_eq_getElem (by omega : n < l2.length)] at hp
    simpa using hp
  · rw [List.getElem?_eq_none_iff.mpr (by omega), List.getElem?_eq_none_iff.mpr (by omega)]
    rfl

/-- C1: every payload of the tree returned by `_gen_sememe_tree` comes
from an entity scanned in the first `;`-clause of the `RMK=`-stripped
definition (the source returns from inside its clause loop), while
`_gen_sememe_list` scans the whole raw definition: on the example with a
second clause and a remark segment the flat list contains, left to right,
the references of all clauses and of the remark, while the tree holds
exactly the first clause's references. -/
theorem claim_C1_first_clause_asymmetry :
    (∀ (dic : List String) (no : String) (df : List Char) (t : SemTree),
      genSememeTree dic no df = .ok t →
      ∃ ents, scanEnts dic (firstClause df) = .ok ents ∧
        ∀ nm ∈ nonRootNames t, nm ∈ ents.map Ent.name) ∧
    genSememeList fourDic multiClauseDef = .ok ["a|b", "c|d", "e|f", "g|h"] ∧
    Except.map nonRootNames (genSememeTree fourDic "1" multiClauseDef) =
      .ok [NodeName.sem "a|b", NodeName.sem "c|d"] ∧
    firstClause multiClauseDef = "\x7ba|b:\x7bc|d\x7d\x7d".data := by
  refine ⟨?_, by decide, by decide, by decide⟩
  intro dic no df t hok
  obtain ⟨ents, nodes, nodes2, h1, h2, h3, h4, rfl⟩ := genSememeTree_ok_elim dic no df t hok
  refine ⟨ents, h1, ?_⟩
  intro nm hnm
  simp only [nonRootNames, forestNames_single] at hnm
  obtain ⟨hlen, hname⟩ := resolveAll_name (firstClause df) ents nodes h2
  have hmapeq := collapse_name (pointerOf ents) nodes nodes2 h3
  have hmem : nm ∈ nodes2.map RNode.name := by
    have hlen2 : nodes2.length = nodes.length := by
      have := congrArg List.length hmapeq
      simpa using this
    exact treeNames_buildTreeA_mem nodes2 nodes2.length 0 (by omega) nm hnm
  rw [hmapeq, map_eq_of_pointwise RNode.name Ent.name nodes ents hlen hname] at hmem
  exact hmem

/-- Witness for C1: the multi-clause example, with the tree produced by
the parse made explicit. -/
theorem claim_C1_witness :
    ∃ ents, scanEnts fourDic (firstClause multiClauseDef) = .ok ents ∧
      ∀ nm ∈ nonRootNames (SemTree.node (.sense "1") "sense"
        (.cons (SemTree.node (.sem "a|b") "None"
          (.cons (.node (.sem "c|d") "None" .nil) .nil)) .nil)), nm ∈ ents.map Ent.name :=
  claim_C1_first_clause_asymmetry.1 fourDic "1" multiClauseDef
    (SemTree.node (.sense "1") "sense"
      (.cons (SemTree.node (.sem "a|b") "None"
        (.cons (.node (.sem "c|d") "None" .nil) .nil)) .nil)) (by decide)

/-! ### C2: batch error handling -/

theorem dictModeGo_filterMap (d : HND) : ∀ l : List Sense,
    dictModeGo d l =
      l.filterMap (fun s => Option.map QueryItem.tree (senseTreeOf d s).toOption) := by
  intro l
  induction l with
  | nil => rfl
  | cons s rest ih =>
    unfold dictModeGo
    cases h : senseTreeOf d s with
    | ok t => simp [h, ih, Except.toOption]
    | error e => simp [h, ih, Except.toOption]

/-- C2 (amended): in the dict/tree display, a failing sense is skipped and
the others are still converted (the loop is exactly a `filterMap` keeping
the parses that succeed): on the example word with a failing first sense
the query still returns the second sense's tree. In the list display,
however, the handler re-raises after reporting, so the same query aborts
with the first sense's error instead of degrading gracefully. -/
theorem claim_C2_batch_error_handling :
    (∀ (d : HND) (l : List Sense),
      dictModeGo d l =
        l.filterMap (fun s => Option.map QueryItem.tree (senseTreeOf d s).toOption)) ∧
    getSememesByWord mixedHND "w" "dict" false (-1) none =
      .ok (.items [.tree (.node (.sense "2") "sense"
        (.cons (.node (.sem "a|b") "None" .nil) .nil))]) ∧
    getSememesByWord mixedHND "w" "list" false (-1) none = .error .indexError :=
  ⟨dictModeGo_filterMap, by decide, by decide⟩

/-- Counterexample for C2: in the list display the first failing sense
aborts the whole batch query with its error; nothing is returned for the
remaining parsable candidate. -/
theorem claim_C2_counterexample :
    getSememesByWord mixedHND "w" "list" false (-1) none = .error .indexError := by
  decide

/-! ### C8: candidate order -/

theorem pyListLt_asymm : ∀ a b : List Char, pyListLt a b = true → pyListLt b a = false := by
  intro a
  induction a with
  | nil =>
    intro b h
    cases b with
    | nil => simp [pyListLt] at h
    | cons c cs => rfl
  | cons c cs ih =>
    intro b h
    cases b with
    | nil => simp [pyListLt] at h
    | cons d ds =>
      unfold pyListLt at h ⊢
      by_cases h1 : c < d
      · rw [if_neg (lt_asymm h1), if_pos h1]
      · rw [if_neg h1] at h
        by_cases h2 : d < c
        · rw [if_pos h2] at h; cases h
        · rw [if_neg h2] at h
          rw [if_neg h2, if_neg h1]
          exact ih ds h

theorem pyListLt_trans : ∀ a b c : List Char,
    pyListLt a b = true → pyListLt b c = true → pyListLt a c = true := by
  intro a
  induction a with
  | nil =>
    intro b c h1 h2
    cases b with
    | nil => simp [pyListLt] at h1
    | cons d ds =>
      cases c with
      | nil => simp [pyListLt] at h2
      | cons e es => rfl
  | cons x xs ih =>
    intro b c h1 h2
    cases b with
    | nil => simp [pyListLt] at h1
    | cons d ds =>
      cases c with
      | nil => simp [pyListLt] at h2
      | cons e es =>
        unfold pyListLt at h1 h2 ⊢
        by_cases hxd : x < d
        · by_cases hde : d < e
          · rw [if_pos (by exact lt_trans hxd hde)]
          · rw [if_neg hde] at h2
            by_cases hed : e < d
            · rw [if_pos hed] at h2; cases h2
            · have : d = e := le_antisymm (le_of_not_lt hed) (le_of_not_lt hde)
              subst this
              rw [if_pos hxd]
        · rw [if_neg hxd] at h1
          by_cases hdx : d < x
          · rw [if_pos hdx] at h1; cases h1
          · rw [if_neg hdx] at h1
            have hxd2 : x = d := le_antisymm (le_of_not_lt hdx) (le_of_not_lt hxd)
            subst hxd2
            by_cases hxe : x < e
            · rw [if_pos hxe]
            · rw [if_neg hxe] at h2 ⊢
              by_cases hex : e < x
              · rw [if_pos hex] at h2; cases h2
              · rw [if_neg hex] at h2 ⊢
                exact ih ds es h1 h2

theorem mem_insertByNo (s x : Sense) : ∀ l, x ∈ insertByNo s l ↔ x = s ∨ x ∈ l := by
  intro l
  induction l with
  | nil => simp [insertByNo]
  | cons t ts ih =>
    unfold insertByNo
    by_cases h : pyListLt s.no.data t.no.data = true
    · rw [if_pos h]
      simp only [List.mem_cons]
    · rw [if_neg h]
      simp only [List.mem_cons, ih]
      tauto

theorem pairwise_insertByNo (s : Sense) : ∀ l : List Sense,
    l.Pairwise (fun a b => pyListLt b.no.data a.no.data = false) →
    (insertByNo s l).Pairwise (fun a b => pyListLt b.no.data a.no.data = false) := by
  intro l
  induction l with
  | nil => intro _; simp [insertByNo]
  | cons t ts ih =>
    intro h
    rw [List.pairwise_cons] at h
    obtain ⟨hall, hts⟩ := h
    unfold insertByNo
    by_cases hlt : pyListLt s.no.data t.no.data = true
    · rw [if_pos hlt]
      rw [List.pairwise_cons]
      constructor
      · intro x hx
        rcases List.mem_cons.mp hx with rfl | hxts
        · exact pyListLt_asymm s.no.data x.no.data hlt
        · by_contra hc
          have hxlt : pyListLt x.no.data s.no.data = true := by
            cases hxx : pyListLt x.no.data s.no.data
            · exact absurd hxx hc
            · rfl
          have h2 := pyListLt_trans x.no.data s.no.data t.no.data hxlt hlt
          rw [hall x hxts] at h2
          cases h2
      · rw [List.pairwise_cons]
        exact ⟨hall, hts⟩
    · rw [if_neg hlt]
      rw [List.pairwise_cons]
      constructor
      · intro x hx
        rcases (mem_insertByNo s x ts).mp hx with rfl | hxts
        · cases hxx : pyListLt x.no.data t.no.data
          · rfl
          · exact absurd hxx hlt
        · exact hall x hxts
      · exact ih hts

theorem pairwise_isortByNo : ∀ l : List Sense,
    (isortByNo l).Pairwise (fun a b => pyListLt b.no.data a.no.data = false) := by
  intro l
  induction l with
  | nil => simp [isortByNo]
  | cons s ss ih => exact pairwise_insertByNo s (isortByNo ss) ih

theorem perm_insertByNo (s : Sense) : ∀ l : List Sense,
    (insertByNo s l).Perm (s :: l) := by
  intro l
  induction l with
  | nil => exact List.Perm.refl _
  | cons t ts ih =>
    unfold insertByNo
    by_cases h : pyListLt s.no.data t.no.data = true
    · rw [if_pos h]
    · rw [if_neg h]
      exact ((ih.cons t).trans (List.Perm.swap s t ts))

theorem perm_isortByNo : ∀ l : List Sense, (isortByNo l).Perm l := by
  intro l
  induction l with
  | nil => exact List.Perm.refl _
  | cons s ss ih => exact (perm_insertByNo s (isortByNo ss)).trans (ih.cons s)

/-- C8 (amended): the candidate list of `get_sememes_by_word` is the
`__getitem__` result sorted (stably) in ascending lexicographic order of
the Sense-`No` strings — Python's `sort(key=lambda x: x.No)` compares
strings by code point, which coincides with ascending numeric order only
for equal-width ids. -/
theorem claim_C8_candidates_sorted_lexicographically :
    (∀ l : List Sense,
      (isortByNo l).Pairwise (fun a b => pyListLt b.no.data a.no.data = false)) ∧
    (∀ l : List Sense, (isortByNo l).Perm l) ∧
    (∀ (d : HND) (w : String) (q : List Sense), queryCandidates d w = .ok q →
      q.Pairwise (fun a b => pyListLt b.no.data a.no.data = false)) := by
  refine ⟨pairwise_isortByNo, perm_isortByNo, ?_⟩
  intro d w q hq
  unfold queryCandidates at hq
  cases h : getItem d w with
  | error e => rw [h] at hq; cases hq
  | ok base =>
    rw [h] at hq
    simp only [except_map_ok] at hq
    cases hq
    exact pairwise_isortByNo base

/-- Witness for C8: the sorted candidate list for the two-sense example. -/
theorem claim_C8_witness :
    List.Pairwise (fun a b => pyListLt b.no.data a.no.data = false)
      [senseTen, senseNine] :=
  claim_C8_candidates_sorted_lexicographically.2.2 idHND "w" [senseTen, senseNine] (by decide)

/-- Counterexample for C8: the candidates for the word `w` are processed
with the sense of id `10` strictly before the sense of id `9`, refuting
ascending numeric order. -/
theorem claim_C8_counterexample :
    queryCandidates idHND "w" = .ok [senseTen, senseNine] ∧
    senseTen.no = "10" ∧ senseNine.no = "9" := by
  decide

/-! ### C6 / C9: expansion and anaphora collapse -/

theorem mem_expandItems_neg : ∀ (f : SemForest) (layer : Int), layer < 0 → ∀ x,
    (x ∈ expandItems f layer ↔ x ∈ forestNames f ∧
      ¬(x = NodeName.marker '$' ∨ x = NodeName.marker '?')) := by
  intro f
  match f with
  | .nil =>
    intro layer h x
    simp [expandItems, forestNames]
  | .cons (.node nm r ch) ts =>
    intro layer h x
    have ih1 := mem_expandItems_neg ch (layer - 1) (by omega)
    have ih2 := mem_expandItems_neg ts layer h
    rw [show expandItems (.cons (.node nm r ch) ts) layer =
      ((if nm = NodeName.marker '$' ∨ nm = NodeName.marker '?' then (∅ : Finset NodeName)
          else {nm}) ∪
        (if layer - 1 = 0 then ∅ else expandItems ch (layer - 1))) ∪
      expandItems ts layer from rfl]
    rw [if_neg (by omega : ¬layer - 1 = 0)]
    simp only [forestNames, List.mem_cons, List.mem_append, Finset.mem_union]
    rw [ih1 x, ih2 x]
    by_cases hm : nm = NodeName.marker '$' ∨ nm = NodeName.marker '?'
    · rw [if_pos hm]
      simp only [Finset.not_mem_empty, false_or]
      constructor
      · rintro (⟨h1, h2⟩ | ⟨h1, h2⟩)
        · exact ⟨Or.inr (Or.inl h1), h2⟩
        · exact ⟨Or.inr (Or.inr h1), h2⟩
      · rintro ⟨(rfl | h1 | h1), h2⟩
        · exact absurd hm h2
        · exact Or.inl ⟨h1, h2⟩
        · exact Or.inr ⟨h1, h2⟩
    · rw [if_neg hm]
      simp only [Finset.mem_union, Finset.mem_singleton]
      constructor
      · rintro ((rfl | ⟨h1, h2⟩) | ⟨h1, h2⟩)
        · exact ⟨Or.inl rfl, hm⟩
        · exact ⟨Or.inr (Or.inl h1), h2⟩
        · exact ⟨Or.inr (Or.inr h1), h2⟩
      · rintro ⟨(rfl | h1 | h1), h2⟩
        · exact Or.inl (Or.inl rfl)
        · exact Or.inl (Or.inr ⟨h1, h2⟩)
        · exact Or.inr ⟨h1, h2⟩

theorem marker_not_mem_expandItems : ∀ (f : SemForest) (layer : Int) (x : NodeName),
    (x = NodeName.marker '$' ∨ x = NodeName.marker '?') → x ∉ expandItems f layer := by
  intro f
  match f with
  | .nil =>
    intro layer x hm
    simp [expandItems]
  | .cons (.node nm r ch) ts =>
    intro layer x hm
    have ih1 := marker_not_mem_expandItems ch (layer - 1) x hm
    have ih2 := marker_not_mem_expandItems ts layer x hm
    simp only [expandItems, Finset.mem_union]
    intro hc
    rcases hc with (hc | hc) | hc
    · by_cases hnm : nm = NodeName.marker '$' ∨ nm = NodeName.marker '?'
      · rw [if_pos hnm] at hc
        exact absurd hc (Finset.not_mem_empty x)
      · rw [if_neg hnm] at hc
        rw [Finset.mem_singleton] at hc
        subst hc
        exact hnm hm
    · by_cases hl : layer - 1 = 0
      · rw [if_pos hl] at hc
        exact absurd hc (Finset.not_mem_empty x)
      · rw [if_neg hl] at hc
        exact ih1 hc
    · exact ih2 hc

/-- C6: `_expand_tree` with layer 0 returns the empty set; with layer
`-1` it returns exactly the non-root payloads except the `$` and `?`
markers, regardless of nesting depth; the two markers are excluded at
every layer; and a `~` never appears as a node of any exported tree,
having been collapsed away. -/
theorem claim_C6_expand_tree_semantics :
    (∀ t : SemTree, expandTree t 0 = ∅) ∧
    (∀ t : SemTree, expandTree t (-1) =
      ((nonRootNames t).filter
        (fun nm => ¬(nm = NodeName.marker '$' ∨ nm = NodeName.marker '?'))).toFinset) ∧
    (∀ (t : SemTree) (layer : Int),
      NodeName.marker '$' ∉ expandTree t layer ∧
      NodeName.marker '?' ∉ expandTree t layer) ∧
    (∀ (dic : List String) (no : String) (df : List Char) (t : SemTree),
      genSememeTree dic no df = .ok t → NodeName.marker '~' ∉ nonRootNames t) := by
  refine ⟨?_, ?_, ?_, genSememeTree_no_tilde⟩
  · intro t
    rfl
  · intro t
    obtain ⟨nm, r, ch⟩ := t
    apply Finset.ext
    intro x
    rw [show expandTree (SemTree.node nm r ch) (-1) = expandItems ch (-2) from rfl]
    rw [mem_expandItems_neg ch (-2) (by omega) x]
    simp only [nonRootNames, List.mem_toFinset, List.mem_filter]
    constructor
    · intro ⟨h1, h2⟩
      exact ⟨h1, by simpa using h2⟩
    · intro ⟨h1, h2⟩
      exact ⟨h1, by simpa using h2⟩
  · intro t layer
    obtain ⟨nm, r, ch⟩ := t
    constructor
    · intro hc
      unfold expandTree at hc
      by_cases h0 : layer = 0
      · rw [if_pos h0] at hc
        exact absurd hc (Finset.not_mem_empty _)
      · rw [if_neg h0] at hc
        have hc2 : NodeName.marker '$' ∈
            (if layer - 1 = 0 then (∅ : Finset NodeName) else expandItems ch (layer - 1)) := hc
        by_cases h1 : layer - 1 = 0
        · rw [if_pos h1] at hc2
          exact absurd hc2 (Finset.not_mem_empty _)
        · rw [if_neg h1] at hc2
          exact marker_not_mem_expandItems ch (layer - 1) _ (Or.inl rfl) hc2
    · intro hc
      unfold expandTree at hc
      by_cases h0 : layer = 0
      · rw [if_pos h0] at hc
        exact absurd hc (Finset.not_mem_empty _)
      · rw [if_neg h0] at hc
        have hc2 : NodeName.marker '?' ∈
            (if layer - 1 = 0 then (∅ : Finset NodeName) else expandItems ch (layer - 1)) := hc
        by_cases h1 : layer - 1 = 0
        · rw [if_pos h1] at hc2
          exact absurd hc2 (Finset.not_mem_empty _)
        · rw [if_neg h1] at hc2
          exact marker_not_mem_expandItems ch (layer - 1) _ (Or.inr rfl) hc2

/-- Witness for C6: the collapsed anaphora example tree contains no `~`. -/
theorem claim_C6_witness :
    NodeName.marker '~' ∉ nonRootNames (SemTree.node (.sense "1") "sense"
      (.cons (.node (.sem "belong|属于") "None" .nil) .nil)) :=
  claim_C6_expand_tree_semantics.2.2.2 anaDic "1" anaDefBraced
    (SemTree.node (.sense "1") "sense"
      (.cons (.node (.sem "belong|属于") "None" .nil) .nil)) (by decide)

/-- C9 (amended): a `~` marker whose parent search succeeds has its
resolved role copied onto the parent and is detached, so no exported tree
contains a `~` node; but for the specification's example definition the
`~` (which directly follows `}`) never resolves a parent and the parse
raises `AttributeError` instead of returning the claimed tree. For the
braced form the claimed shape and expansion do hold, and a braced marker
carrying a role label shows the role copy onto its parent. -/
theorem claim_C9_anaphora_collapse :
    (∀ (dic : List String) (no : String) (df : List Char) (t : SemTree),
      genSememeTree dic no df = .ok t → NodeName.marker '~' ∉ nonRootNames t) ∧
    genSememeTree anaDic "1" anaDefBraced =
      .ok (.node (.sense "1") "sense"
        (.cons (.node (.sem "belong|属于") "None" .nil) .nil)) ∧
    expandTree (SemTree.node (.sense "1") "sense"
      (.cons (.node (.sem "belong|属于") "None" .nil) .nil)) (-1) =
      {NodeName.sem "belong|属于"} ∧
    genSememeTree ["a|b"] "1" anaDefRole =
      .ok (.node (.sense "1") "sense" (.cons (.node (.sem "a|b") "x" .nil) .nil)) :=
  ⟨genSememeTree_no_tilde, by decide, by decide, by decide⟩

/-- Witness for C9: the tree parsed from the nested two-sememe definition
contains no `~` node. -/
theorem claim_C9_witness :
    NodeName.marker '~' ∉ nonRootNames (SemTree.node (.sense "1") "sense"
      (.cons (SemTree.node (.sem "a|b") "None"
        (.cons (.node (.sem "c|d") "None" .nil) .nil)) .nil)) :=
  claim_C9_anaphora_collapse.1 twoDic "1" nestedDef
    (SemTree.node (.sense "1") "sense"
      (.cons (SemTree.node (.sem "a|b") "None"
        (.cons (.node (.sem "c|d") "None" .nil) .nil)) .nil)) (by decide)

/-- Counterexample for C9: on the specification's example definition the
parse raises `AttributeError` (`None.role`), so the claimed tree is never
returned. -/
theorem claim_C9_counterexample :
    genSememeTree anaDic "1" anaDefSpec = .error .attributeError := by
  decide

/-! ### C4: termination of the scans -/

theorem pyCharAt_neg_oob (s : List Char) (i : Int) (h : i + s.length < 0) :
    pyCharAt s i = .error .indexError := by
  unfold pyCharAt
  rw [if_pos (show pyIdx s i < 0 by
    unfold pyIdx
    rw [if_pos (show i < 0 by omega)]
    omega)]

theorem pyCharAt_ok_lower (s : List Char) (i : Int) (c : Char)
    (h : pyCharAt s i = .ok c) : -(s.length : Int) ≤ i := by
  by_contra hc
  push_neg at hc
  rw [pyCharAt_neg_oob s i (by omega)] at h
  cases h

theorem findEndA_eq_findEndW (s : List Char) :
    ∀ k i, s.length - i < k → findEndA k s i = findEndW s i := by
  intro k
  induction k with
  | zero => intro i h; omega
  | succ k ih =>
    intro i h
    cases hg : s.get? i with
    | none =>
      rw [findEndW.eq_def, hg]
      unfold findEndA
      simp only [hg]
    | some c =>
      rw [findEndW.eq_def, hg]
      unfold findEndA
      simp only [hg]
      by_cases hc : c = '\x7d' ∨ c = ':' ∨ c = '"'
      · rw [if_pos hc, if_pos hc]
      · rw [if_neg hc, if_neg hc]
        have hi : i < s.length := by
          by_contra hcon
          rw [List.get?_eq_none.mpr (by omega)] at hg
          cases hg
        exact ih (i+1) (by omega)

theorem findStartA_eq_findStartW (s : List Char) :
    ∀ k (i : Int), (i + s.length + 1).toNat ≤ k → findStartA k s i = findStartW s i := by
  intro k
  induction k with
  | zero =>
    intro i h
    have hoob : i + s.length < 0 := by omega
    rw [findStartW.eq_def, pyCharAt_neg_oob s i hoob]
    rfl
  | succ k ih =>
    intro i h
    cases hg : pyCharAt s i with
    | error e =>
      rw [findStartW.eq_def, hg]
      unfold findStartA
      simp only [hg]
    | ok c =>
      have hlow := pyCharAt_ok_lower s i c hg
      rw [findStartW.eq_def, hg]
      unfold findStartA
      simp only [hg]
      by_cases hc : c = '\x7b' ∨ c = '"'
      · rw [if_pos hc, if_pos hc]
      · rw [if_neg hc, if_neg hc]
        exact ih (i-1) (by omega)

theorem findCursorA_eq_findCursorW (s : List Char) :
    ∀ k (cursor : Int) (lb rb q : Nat), (cursor + s.length + 1).toNat ≤ k →
      findCursorA k s cursor lb rb q = findCursorW s cursor lb rb q := by
  intro k
  induction k with
  | zero =>
    intro cursor lb rb q h
    have hoob : cursor + s.length < 0 := by omega
    rw [findCursorW.eq_def, pyCharAt_neg_oob s cursor hoob]
    rfl
  | succ k ih =>
    intro cursor lb rb q h
    cases hg : pyCharAt s cursor with
    | error e =>
      rw [findCursorW.eq_def, hg]
      unfold findCursorA
      simp only [hg]
    | ok c =>
      have hlow := pyCharAt_ok_lower s cursor c hg
      rw [findCursorW.eq_def, hg]
      unfold findCursorA
      simp only [hg]
      by_cases h1 : c = ':' ∧ ((q % 2 = 0 ∧ lb = rb + 1) ∨ (q % 2 = 1 ∧ lb = rb))
      · rw [if_pos h1, if_pos h1]
      · rw [if_neg h1, if_neg h1]
        by_cases h2 : cursor = 0
        · rw [if_pos h2, if_pos h2]
        · rw [if_neg h2, if_neg h2]
          by_cases h3 : c = '\x7b'
          · rw [if_pos h3, if_pos h3]
            exact ih (cursor - 1) (lb+1) rb q (by omega)
          · rw [if_neg h3, if_neg h3]
            by_cases h4 : c = '\x7d'
            · rw [if_pos h4, if_pos h4]
              exact ih (cursor - 1) lb (rb+1) q (by omega)
            · rw [if_neg h4, if_neg h4]
              by_cases h5 : c = '"'
              · rw [if_pos h5, if_pos h5]
                exact ih (cursor - 1) lb rb (q+1) (by omega)
              · rw [if_neg h5, if_neg h5]
                exact ih (cursor - 1) lb rb q (by omega)

/-- C4: each scanning loop of the parser computes, within its explicit
step budget, the same answer as the corresponding budget-free recursion
(whose well-foundedness rests on the scans strictly advancing or strictly
decreasing and being bounded by the string) — so parsing always
terminates; and on the malformed definition missing its closing
delimiter both the tree builder and the flattening routine raise
`IndexError` rather than looping or returning a truncated result. -/
theorem claim_C4_scan_termination :
    (∀ (s : List Char) (i : Nat), findEnd s i = findEndW s i) ∧
    (∀ (s : List Char) (i : Int), findStart s i = findStartW s i) ∧
    (∀ (s : List Char) (cursor : Int), findCursor s cursor = findCursorW s cursor 0 0 0) ∧
    genSememeTree twoDic "1" malformedDef = .error .indexError ∧
    genSememeList twoDic malformedDef = .error .indexError := by
  refine ⟨?_, ?_, ?_, by decide, by decide⟩
  · intro s i
    by_cases h : i ≤ s.length
    · exact findEndA_eq_findEndW s (s.length + 1 - i) i (by omega)
    · unfold findEnd
      rw [show s.length + 1 - i = 0 by omega]
      rw [findEndW.eq_def, List.get?_eq_none.mpr (by omega)]
      rfl
  · intro s i
    exact findStartA_eq_findStartW s (i + s.length + 1).toNat i (le_refl _)
  · intro s cursor
    exact findCursorA_eq_findCursorW s (cursor + s.length + 1).toNat cursor 0 0 0 (le_refl _)

/-! ### C5: round trip between tree and flat list -/

theorem splitSemi_no_semi : ∀ s : List Char, (∀ c ∈ s, c ≠ ';') → splitSemi s = [s] := by
  intro s
  induction s with
  | nil => intro _; rfl
  | cons c rest ih =>
    intro h
    unfold splitSemi
    rw [if_neg (h c (by simp))]
    rw [ih (fun x hx => h x (by simp [hx]))]

theorem firstClause_eq_self (df : List Char) (hsemi : ∀ c ∈ df, c ≠ ';')
    (hrmk : strFind df ("RMK=".data) = none) : firstClause df = df := by
  unfold firstClause rmkStrip
  simp only [hrmk]
  rw [splitSemi_no_semi df hsemi]
  rfl

theorem pySlice_subset (s : List Char) (a b : Int) : ∀ c ∈ pySlice s a b, c ∈ s := by
  intro c hc
  unfold pySlice at hc
  exact List.mem_of_mem_take (List.mem_of_mem_drop hc)

theorem map_replace_id (l : List Char) (h : ∀ c ∈ l, c ≠ ' ') :
    l.map (fun ch => if ch = ' ' then '_' else ch) = l := by
  have h2 : l.map (fun ch => if ch = ' ' then '_' else ch) = l.map id :=
    List.map_congr_left (fun a ha => by rw [if_neg (h a ha)]; rfl)
  rw [h2, List.map_id]

theorem scanEntsA_names_sem (dic : List String) (s : List Char)
    (hs : ∀ c ∈ s, c ≠ '~' ∧ c ≠ '?' ∧ c ≠ '$') :
    ∀ k i ents, scanEntsA k dic s i = .ok ents →
      ∀ e ∈ ents, ∃ lab, e.name = NodeName.sem lab := by
  intro k
  induction k with
  | zero =>
    intro i ents h e he
    cases h
    cases he
  | succ k ih =>
    intro i ents h e he
    cases hg : s.get? i with
    | none =>
      unfold scanEntsA at h
      simp only [hg] at h
      cases h
      cases he
    | some c =>
      have hc := hs c (List.get?_mem hg)
      unfold scanEntsA at h
      simp only [hg] at h
      rw [if_neg (show ¬(c = '~' ∨ c = '?' ∨ c = '$') by tauto)] at h
      by_cases hp : c = '|'
      · rw [if_pos hp] at h
        cases hst : findStart s i with
        | error e2 => rw [hst] at h; cases h
        | ok st =>
          rw [hst] at h
          simp only [except_ok_bind] at h
          cases hen : findEnd s i with
          | error e2 => rw [hen] at h; cases h
          | ok en =>
            rw [hen] at h
            simp only [except_ok_bind] at h
            by_cases hd : dic.contains (String.mk ((pySlice s (st + 1) en).map
                (fun ch => if ch = ' ' then '_' else ch))) = true
            · rw [if_pos hd] at h
              cases hrest : scanEntsA k dic s (i+1) with
              | error e2 => rw [hrest] at h; cases h
              | ok rest =>
                rw [hrest] at h
                simp only [except_ok_bind] at h
                cases h
                rcases List.mem_cons.mp he with rfl | hem
                · exact ⟨_, rfl⟩
                · exact ih (i+1) rest hrest e hem
            · rw [if_neg hd] at h
              cases h
      · rw [if_neg hp] at h
        exact ih (i+1) ents h e he

theorem pointerOf_eq_nil (ents : List Ent)
    (h : ∀ e ∈ ents, ∃ lab, e.name = NodeName.sem lab) : pointerOf ents = [] := by
  unfold pointerOf
  rw [List.filter_eq_nil_iff]
  intro k hk
  rw [List.mem_range] at hk
  have hmem : ents.getD k default ∈ ents := by
    rw [List.getD_eq_getElem?_getD, List.getElem?_eq_getElem hk]
    exact List.getElem_mem hk
  obtain ⟨lab, hlab⟩ := h _ hmem
  rw [hlab]
  simp

theorem genSememeListA_eq_scan (dic : List String) (s : List Char)
    (hs : ∀ c ∈ s, c ≠ '~' ∧ c ≠ '?' ∧ c ≠ '$' ∧ c ≠ ' ') :
    ∀ k i, genSememeListA k dic s i =
      Except.map (List.map (fun e : Ent =>
        match e.name with | NodeName.sem lab => lab | _ => "")) (scanEntsA k dic s i) := by
  intro k
  induction k with
  | zero => intro i; rfl
  | succ k ih =>
    intro i
    cases hg : s.get? i with
    | none =>
      unfold genSememeListA scanEntsA
      simp only [hg]
      rfl
    | some c =>
      have hc := hs c (List.get?_mem hg)
      unfold genSememeListA scanEntsA
      simp only [hg]
      rw [if_neg (show ¬(c = '~' ∨ c = '?' ∨ c = '$') by tauto)]
      by_cases hp : c = '|'
      · rw [if_pos hp, if_pos hp]
        cases hst : findStart s i with
        | error e => rfl
        | ok st =>
          simp only [except_ok_bind]
          cases hen : findEnd s i with
          | error e => rfl
          | ok en =>
            simp only [except_ok_bind]
            have hslice : (pySlice s (st + 1) en).map (fun ch => if ch = ' ' then '_' else ch)
                = pySlice s (st + 1) en :=
              map_replace_id _ (fun c2 hc2 => (hs c2 (pySlice_subset s _ _ c2 hc2)).2.2.2)
            rw [hslice]
            by_cases hd : dic.contains (String.mk (pySlice s (st + 1) en)) = true
            · rw [if_pos hd, if_pos hd]
              rw [ih (i+1)]
              cases hrest : scanEntsA k dic s (i+1) with
              | error e => rfl
              | ok rest => rfl
            · rw [if_neg hd, if_neg hd]
              rfl
      · rw [if_neg hp, if_neg hp]
        exact ih (i+1)

theorem childrenIdx_nil_of_le (ns : List RNode) (j : Nat) (h : ns.length ≤ j) :
    childrenIdx ns j = [] := by
  unfold childrenIdx
  rw [List.filter_eq_nil_iff]
  intro i hi
  rw [List.mem_range] at hi
  simp only [decide_eq_true_eq, not_and]
  intro hji
  omega

theorem buildTreeA_stable (ns : List RNode) :
    ∀ k1 k2 j, ns.length - j ≤ k1 → ns.length - j ≤ k2 →
      buildTreeA k1 ns j = buildTreeA k2 ns j := by
  intro k1
  induction k1 with
  | zero =>
    intro k2 j h1 h2
    cases k2 with
    | zero => rfl
    | succ m =>
      unfold buildTreeA
      rw [childrenIdx_nil_of_le ns j (by omega)]
      rfl
  | succ k ih =>
    intro k2 j h1 h2
    cases k2 with
    | zero =>
      unfold buildTreeA
      rw [childrenIdx_nil_of_le ns j (by omega)]
      rfl
    | succ m =>
      unfold buildTreeA
      congr 1
      congr 1
      apply List.map_congr_left
      intro i hi
      obtain ⟨hilen, hji, _⟩ := (mem_childrenIdx ns j i).mp hi
      exact ih m i (by omega) (by omega)

theorem name_mem_treeNames_buildTreeA (ns : List RNode) (k j : Nat) :
    (ns.getD j default).name ∈ treeNames (buildTreeA k ns j) := by
  cases k <;> simp [buildTreeA, treeNames]

theorem treeNames_child_subset (ns : List RNode) (k j i : Nat)
    (hi : i ∈ childrenIdx ns j) :
    ∀ nm ∈ treeNames (buildTreeA k ns i), nm ∈ treeNames (buildTreeA (k+1) ns j) := by
  intro nm hnm
  rw [show buildTreeA (k+1) ns j = .node (ns.getD j default).name (ns.getD j default).role
    (forestOf ((childrenIdx ns j).map (buildTreeA k ns))) from rfl]
  simp only [treeNames]
  apply List.mem_cons.mpr
  right
  rw [forestNames_forestOf, List.mem_flatMap]
  exact ⟨buildTreeA k ns i, List.mem_map.mpr ⟨i, hi, rfl⟩, hnm⟩

theorem treeNames_reach (ns : List RNode)
    (hpar0 : ∀ i, 0 < i → i < ns.length → (ns.getD i default).parent ≠ none)
    (hlt : ∀ i j, i < ns.length → (ns.getD i default).parent = some j → j < i) :
    ∀ i, i < ns.length → ∀ nm ∈ treeNames (buildTreeA ns.length ns i),
      nm ∈ treeNames (buildTreeA ns.length ns 0) := by
  intro i
  induction i using Nat.strong_induction_on with
  | _ i ih =>
    intro hi nm hnm
    by_cases h0 : i = 0
    · subst h0
      exact hnm
    · have hp := hpar0 i (by omega) hi
      cases hp2 : (ns.getD i default).parent with
      | none => exact absurd hp2 hp
      | some p =>
        have hpi := hlt i p hi hp2
        have hchild : i ∈ childrenIdx ns p := (mem_childrenIdx ns p i).mpr ⟨hi, hpi, hp2⟩
        rw [buildTreeA_stable ns ns.length (ns.length - 1) i (by omega) (by omega)] at hnm
        have hsub := treeNames_child_subset ns (ns.length - 1) p i hchild nm hnm
        rw [show ns.length - 1 + 1 = ns.length by omega] at hsub
        exact ih p hpi (by omega) nm hsub

/-- C5 (amended): for a definition without anaphora markers that is,
additionally, a single clause (no `;`), has no remark segment and no
blanks, and in which every entity after the first resolved a parent, the
sememes of the flat `_gen_sememe_list` result equal, as a set, the sememe
payloads of the `_gen_sememe_tree` result. Each added proviso is forced by
the code: an unresolved parent silently drops the entity from the tree
(the counterexample), the flat scan crosses clause and remark boundaries,
and only the tree builder replaces blanks by underscores before its
registry lookup. -/
theorem claim_C5_round_trip :
    ∀ (dic : List String) (no : String) (df : List Char) (t : SemTree),
      (∀ c ∈ df, c ≠ '~' ∧ c ≠ '?' ∧ c ≠ '$' ∧ c ≠ ';' ∧ c ≠ ' ') →
      strFind df ("RMK=".data) = none →
      allParentsResolved dic df = true →
      genSememeTree dic no df = .ok t →
      ∃ l, genSememeList dic df = .ok l ∧
        (l.map NodeName.sem).toFinset = (nonRootNames t).toFinset := by
  intro dic no df t hch hrmk hpar hok
  have hfc : firstClause df = df :=
    firstClause_eq_self df (fun c hc => (hch c hc).2.2.2.1) hrmk
  obtain ⟨ents, nodes, nodes2, h1, h2, h3, h4, rfl⟩ := genSememeTree_ok_elim dic no df t hok
  rw [hfc] at h1 h2
  have hsem : ∀ e ∈ ents, ∃ lab, e.name = NodeName.sem lab := by
    apply scanEntsA_names_sem dic df
      (fun c hc => ⟨(hch c hc).1, (hch c hc).2.1, (hch c hc).2.2.1⟩) df.length 0 ents
    exact h1
  have hptr : pointerOf ents = [] := pointerOf_eq_nil ents hsem
  rw [hptr] at h3
  have hn2 : nodes2 = nodes := by
    unfold collapse at h3
    rw [List.foldlM_nil] at h3
    cases h3
    rfl
  subst hn2
  have hlist := genSememeListA_eq_scan dic df
    (fun c hc => ⟨(hch c hc).1, (hch c hc).2.1, (hch c hc).2.2.1, (hch c hc).2.2.2.2⟩)
    df.length 0
  refine ⟨ents.map (fun e => match e.name with | NodeName.sem lab => lab | _ => ""), ?_, ?_⟩
  · unfold genSememeList
    rw [hlist]
    unfold scanEnts at h1
    rw [h1]
    rfl
  · have hmapl : ((ents.map (fun e =>
        match e.name with | NodeName.sem lab => lab | _ => "")).map NodeName.sem)
        = ents.map Ent.name := by
      rw [List.map_map]
      apply List.map_congr_left
      intro e he
      obtain ⟨lab, hlab⟩ := hsem e he
      simp [Function.comp, hlab]
    rw [hmapl]
    obtain ⟨hlen, hname⟩ := resolveAll_name df ents nodes2 h2
    have hmn : nodes2.map RNode.name = ents.map Ent.name :=
      map_eq_of_pointwise RNode.name Ent.name nodes2 ents hlen hname
    rw [← hmn]
    simp only [nonRootNames, forestNames_single]
    have hpar0 : ∀ i, 0 < i → i < nodes2.length → (nodes2.getD i default).parent ≠ none := by
      unfold allParentsResolved at hpar
      rw [hfc] at hpar
      simp only [h1] at hpar
      simp only [h2] at hpar
      intro i h0 hilen
      have h5 := List.all_eq_true.mp hpar i (List.mem_range.mpr hilen)
      simp only [Bool.or_eq_true, decide_eq_true_eq, Option.isSome_iff_exists] at h5
      rcases h5 with h5 | ⟨v, h5⟩
      · omega
      · rw [h5]
        simp
    have hlt := resolveAll_parent_lt df ents nodes2 h2
    apply Finset.ext
    intro x
    simp only [List.mem_toFinset]
    constructor
    · intro hx
      rw [List.mem_map] at hx
      obtain ⟨a, ha, rfl⟩ := hx
      obtain ⟨i, hilen, rfl⟩ := List.mem_iff_getElem.mp ha
      have hhead : (nodes2.getD i default).name ∈ treeNames (buildTreeA nodes2.length nodes2 i) :=
        name_mem_treeNames_buildTreeA nodes2 nodes2.length i
      have hreach := treeNames_reach nodes2 hpar0 (fun i2 j2 hi2 hp2 => hlt i2 j2 hi2 hp2)
        i hilen _ hhead
      rw [List.getD_eq_getElem?_getD, List.getElem?_eq_getElem hilen, Option.getD_some] at hreach
      exact hreach
    · intro hx
      exact treeNames_buildTreeA_mem nodes2 nodes2.length 0 (by omega) x hx

/-- Witness for C5: the nested single-clause definition, with the tree and
flat list both evaluated. -/
theorem claim_C5_witness :
    ∃ l, genSememeList twoDic nestedDef = .ok l ∧
      (l.map NodeName.sem).toFinset =
        (nonRootNames (SemTree.node (.sense "1") "sense"
          (.cons (SemTree.node (.sem "a|b") "None"
            (.cons (.node (.sem "c|d") "None" .nil) .nil)) .nil))).toFinset :=
  claim_C5_round_trip twoDic "1" nestedDef
    (SemTree.node (.sense "1") "sense"
      (.cons (SemTree.node (.sem "a|b") "None"
        (.cons (.node (.sem "c|d") "None" .nil) .nil)) .nil))
    (by decide) (by decide) (by decide) (by decide)

/-- Counterexample for C5: `{a|b}{c|d}` has no anaphora marker, yet the
second top-level group never resolves a parent and is dropped from the
tree, while the flat list (entirely within the first clause) holds both
sememes — the claimed set equality fails. -/
theorem claim_C5_counterexample :
    genSememeTree twoDic "1" twoGroupsDef =
      .ok (.node (.sense "1") "sense" (.cons (.node (.sem "a|b") "None" .nil) .nil)) ∧
    genSememeList twoDic twoGroupsDef = .ok ["a|b", "c|d"] ∧
    ¬((["a|b", "c|d"].map NodeName.sem).toFinset =
      (nonRootNames (SemTree.node (.sense "1") "sense"
        (.cons (.node (.sem "a|b") "None" .nil) .nil))).toFinset) := by
  refine ⟨by decide, by decide, by decide⟩
